import Mathlib

/-!
Formal model of the KeySentinel secret-detection engine.

Strings of the JavaScript/TypeScript source are modelled as `List Char`;
JavaScript numbers that hold line counters are modelled as `Int` (they can go
negative via a `c - 1` reset), and floating-point entropy values are modelled
as real numbers.  Each definition below mirrors one function of the source
(`src/lib/mask.js`, `src/src/patterns.ts`, the scanner module).
-/

namespace KeySentinel

/-- Severity levels of the source (the string union of high, medium, low).
The same three-valued type is used for the confidence field. -/
inductive Severity where
  | low : Severity
  | medium : Severity
  | high : Severity
deriving DecidableEq, Repr

/-- A reported finding, mirroring the Finding record of the scanner module:
file, line (number or null), type, severity, confidence, masked snippet and
the unmasked raw value. -/
structure Finding where
  file : List Char
  line : Option Int
  type : String
  severity : Severity
  confidence : Severity
  snippet : List Char
  rawValue : List Char
deriving DecidableEq, Repr

/-! ## Masking (src/lib/mask.js) -/

/-- Model of the JavaScript slice from the end, `value.slice(-showChars)`:
for `showChars = 0` JavaScript computes `slice(0)`, the whole string. -/
def sliceLast (value : List Char) (showChars : Nat) : List Char :=
  if showChars = 0 then value else value.drop (value.length - showChars)

/-- maskSecret from src/lib/mask.js: an empty value masks to three stars; a
value too short to mask meaningfully masks entirely (capped at 10 stars);
otherwise the first and last showChars characters are kept and the middle is
replaced by at most 20 stars. -/
def maskSecret (value : List Char) (showChars : Nat := 3) : List Char :=
  if value = [] then ['*', '*', '*']
  else if value.length ≤ showChars * 2 + 3 then
    List.replicate (min value.length 10) '*'
  else
    value.take showChars
      ++ List.replicate (min (value.length - showChars * 2) 20) '*'
      ++ sliceLast value showChars

/-- First index at which target occurs in s (the JavaScript indexOf, with
none for -1).  An empty target occurs at index 0. -/
def firstIndexOf : List Char → List Char → Option Nat
  | [], target => if target <+: ([] : List Char) then some 0 else none
  | c :: cs, target =>
      if target <+: c :: cs then some 0
      else (firstIndexOf cs target).map (· + 1)

/-- The replacement-pattern expansion that JavaScript String.replace applies
to its replacement string (GetSubstitution with a string search value, so
the capture list is empty): a dollar followed by a dollar yields a literal
dollar, by an ampersand yields the matched text, by a backquote (code 96)
yields the portion of the subject before the match, by a quote (code 39)
the portion after it; any other dollar, including digit references with no
captures to refer to, stays literal. -/
def expandDollar (matched pre post : List Char) : List Char → List Char
  | [] => []
  | [c] => [c]
  | c :: d :: rest =>
      if c = '$' then
        if d = '$' then '$' :: expandDollar matched pre post rest
        else if d = '&' then matched ++ expandDollar matched pre post rest
        else if d = Char.ofNat 96 then
          pre ++ expandDollar matched pre post rest
        else if d = Char.ofNat 39 then
          post ++ expandDollar matched pre post rest
        else '$' :: d :: expandDollar matched pre post rest
      else c :: expandDollar matched pre post (d :: rest)

/-- The JavaScript String.replace with a string pattern: replace the first
occurrence of target by the replacement expanded under the dollar
substitution patterns, or return s unchanged when target does not occur. -/
def replaceFirst (s target repl : List Char) : List Char :=
  match firstIndexOf s target with
  | none => s
  | some i =>
      s.take i
        ++ expandDollar target (s.take i) (s.drop (i + target.length)) repl
        ++ s.drop (i + target.length)

/-- Model of the JavaScript slice end index: a negative end counts from the
end of the string (clamped at 0), a nonnegative one is clamped at the
length. -/
def jsSliceEnd (len : Nat) (e : Int) : Nat :=
  if e < 0 then ((len : Int) + e).toNat else min e.toNat len

/-- maskLine from src/lib/mask.js: substitute the masked secret for the first
occurrence of secretValue in line, then truncate to a 20-character window of
context around the masked token (found again by indexOf) when the masked
line exceeds maxLineLength. -/
def maskLine (line secretValue : List Char) (maxLineLength : Nat := 100) :
    List Char :=
  if line = [] ∨ secretValue = [] then line
  else
    let maskedSecret := maskSecret secretValue
    let maskedLine := replaceFirst line secretValue maskedSecret
    if maskedLine.length > maxLineLength then
      match firstIndexOf maskedLine maskedSecret with
      | none => maskedLine.take (jsSliceEnd maskedLine.length ((maxLineLength : Int) - 3))
          ++ ['.', '.', '.']
      | some secretPos =>
          let start := secretPos - 20
          let stop := min maskedLine.length (secretPos + maskedSecret.length + 20)
          let result := (maskedLine.drop start).take (stop - start)
          (if 0 < start then ['.', '.', '.'] else [])
            ++ result
            ++ (if stop < maskedLine.length then ['.', '.', '.'] else [])
    else maskedLine

/-! ## Entropy and heuristics (src/src/patterns.ts) -/

/-- Shannon entropy of a string as computed by calculateEntropy of the
source: character frequencies are collected in insertion order (modelled by
dedup) and the probabilities p = count/len contribute -p*log2(p) each.  The
empty string has entropy 0. -/
noncomputable def calculateEntropy (s : List Char) : ℝ :=
  if s.length = 0 then 0
  else
    s.dedup.foldl
      (fun acc c =>
        acc - ((s.count c : ℝ) / (s.length : ℝ))
                * Real.logb 2 ((s.count c : ℝ) / (s.length : ℝ)))
      0

/-- Characters of the base64 alphabet (without padding). -/
def base64Char (c : Char) : Bool :=
  c.isAlpha || c.isDigit || c = '+' || c = '/'

/-- isBase64Like of the source: the regex [A-Za-z0-9+/]+=* anchored on both
sides, together with a length divisible by 4. -/
def isBase64Like (s : List Char) : Bool :=
  let core := ((s.reverse.dropWhile (· = '=')).reverse)
  core ≠ [] && core.all base64Char && s.length % 4 = 0

/-- Hexadecimal digit in either case, as matched by [a-f0-9] under the
case-insensitive flag. -/
def hexChar (c : Char) : Bool :=
  c.isDigit || ('a' ≤ c && c ≤ 'f') || ('A' ≤ c && c ≤ 'F')

/-- Split a character list at every occurrence of the separator, keeping
empty segments, as the segments of the regexes with (_[a-z]+)* groups. -/
def splitOnChar (sep : Char) : List Char → List (List Char)
  | [] => [[]]
  | c :: rest =>
      if c = sep then [] :: splitOnChar sep rest
      else
        match splitOnChar sep rest with
        | [] => [[c]]
        | seg :: segs => (c :: seg) :: segs

/-- The UUID shape [a-f0-9]{8}-{4}-{4}-{4}-{12}, case-insensitive. -/
def isUuidShape (s : List Char) : Bool :=
  match splitOnChar '-' s with
  | [a, b, c, d, e] =>
      a.length = 8 && b.length = 4 && c.length = 4 && d.length = 4 &&
      e.length = 12 && (a ++ b ++ c ++ d ++ e).all hexChar
  | _ => false

/-- Identifier shape of the snake/kebab heuristics: nonempty letter runs
separated by single occurrences of sep (its regex is case-insensitive, so
any letters count). -/
def isSepIdent (sep : Char) (s : List Char) : Bool :=
  (splitOnChar sep s).all (fun seg => seg ≠ [] && seg.all Char.isAlpha)

/-- The version-string prefix v?digits.digits.digits (unanchored at the
right, as in the source regex). -/
def isVersionPrefix (s : List Char) : Bool :=
  let t := match s with
    | 'v' :: rest => rest
    | other => other
  let (d1, r1) := (t.takeWhile Char.isDigit, t.dropWhile Char.isDigit)
  match d1, r1 with
  | [], _ => false
  | _, '.' :: r2 =>
      let (d2, r3) := (r2.takeWhile Char.isDigit, r2.dropWhile Char.isDigit)
      match d2, r3 with
      | [], _ => false
      | _, '.' :: r4 => (r4.takeWhile Char.isDigit) ≠ []
      | _, _ => false
  | _, _ => false

/-- Word characters of the JavaScript regex class backslash-w. -/
def wordChar (c : Char) : Bool :=
  c.isAlpha || c.isDigit || c = '_'

/-- The URL heuristic https?://[^ws@]+ anchored on both sides. -/
def isBareUrl (s : List Char) : Bool :=
  let rest :=
    if ['h','t','t','p',':','/','/'] <+: s then some (s.drop 7)
    else if ['h','t','t','p','s',':','/','/'] <+: s then some (s.drop 8)
    else none
  match rest with
  | none => false
  | some r => r ≠ [] && r.all (fun c => !c.isWhitespace && c ≠ '@')

/-- The email heuristic [w.+-]+@[w.-]+.[a-z]{2,} (case-insensitive): one @
splitting a nonempty local part from a domain whose final dot is followed by
at least two letters. -/
def isEmailShape (s : List Char) : Bool :=
  match splitOnChar '@' s with
  | [localPart, domain] =>
      localPart ≠ [] &&
      localPart.all (fun c => wordChar c || c = '.' || c = '+' || c = '-') &&
      (let tld := (domain.reverse.takeWhile Char.isAlpha).reverse
       let front := domain.take (domain.length - tld.length - 1)
       2 ≤ tld.length &&
       domain.take (domain.length - tld.length) = front ++ ['.'] &&
       front ≠ [] &&
       front.all (fun c => wordChar c || c = '.' || c = '-'))
  | _ => false

/-- The sha digest heuristic sha[0-9]{3}:[a-f0-9]{64}, case-insensitive on
the sha prefix and hex digits. -/
def isShaDigest (s : List Char) : Bool :=
  match s with
  | a :: b :: c :: d :: e :: f :: ':' :: rest =>
      (a = 's' || a = 'S') && (b = 'h' || b = 'H') && (c = 'a' || c = 'A') &&
      d.isDigit && e.isDigit && f.isDigit &&
      rest.length = 64 && rest.all hexChar
  | _ => false

/-- isLikelyNonSecret of the source: the eleven fixed heuristics that
suppress structurally uninteresting candidates before entropy is computed. -/
def isLikelyNonSecret (s : List Char) : Bool :=
  (s ≠ [] && s.all Char.isDigit) ||
  (s.length = 36 && isUuidShape s) ||
  ((s.map Char.toLower) ∈
    [['t','r','u','e'], ['f','a','l','s','e'], ['n','u','l','l'],
     ['u','n','d','e','f','i','n','e','d'], ['n','o','n','e']]) ||
  isSepIdent '_' s ||
  isSepIdent '-' s ||
  isVersionPrefix s ||
  isBareUrl s ||
  isEmailShape s ||
  isShaDigest s ||
  (s.length = 64 && s.all hexChar) ||
  (s.length = 40 && s.all hexChar)

/-- Entropy-detection settings, mirroring EntropyConfig of the source.  The
threshold is a floating-point number, modelled as a real. -/
structure EntropyConfig where
  enabled : Bool
  minLength : Nat
  threshold : ℝ
  ignoreBase64Like : Bool

/-! Tokenizer for the candidate regex of detectHighEntropyStrings:
word-boundary, 20 or more characters of the class a-z A-Z 0-9 underscore
hyphen plus slash, word-boundary,
executed globally as the JavaScript exec loop does. -/

/-- Characters of the candidate-token class: word characters plus hyphen,
plus and slash. -/
def tokenChar (c : Char) : Bool :=
  wordChar c || c = '-' || c = '+' || c = '/'

/-- Whether the character at index i is a word character (out of range
counts as not). -/
def isWordAt (s : List Char) (i : Nat) : Bool :=
  match s.get? i with
  | some c => wordChar c
  | none => false

/-- Word boundary between positions i-1 and i. -/
def boundaryAt (s : List Char) : Nat → Bool
  | 0 => isWordAt s 0
  | i + 1 => isWordAt s i != isWordAt s (i + 1)

/-- Length of the maximal run of token characters starting at index i. -/
def runLen (s : List Char) (i : Nat) : Nat :=
  ((s.drop i).takeWhile tokenChar).length

/-- Backtracking for the trailing word boundary: try match lengths from j
down to 20 and keep the first one ending on a boundary. -/
def findEnd (s : List Char) (i : Nat) : Nat → Option Nat
  | 0 => none
  | j + 1 =>
      if j + 1 < 20 then none
      else if boundaryAt s (i + (j + 1)) then some (j + 1)
      else findEnd s i j

/-- Try the token regex at index i: a leading boundary, then a greedy run of
at least 20 token characters ending on a boundary. -/
def tryMatchAt (s : List Char) (i : Nat) : Option Nat :=
  if boundaryAt s i then findEnd s i (runLen s i) else none

/-- The global exec loop: advance by one on failure, past the match on
success, collecting (index, length) pairs. -/
def scanTokensAux (s : List Char) : Nat → Nat → List (Nat × Nat)
  | 0, _ => []
  | fuel + 1, i =>
      if s.length ≤ i then []
      else
        match tryMatchAt s i with
        | none => scanTokensAux s fuel (i + 1)
        | some j => (i, j) :: scanTokensAux s fuel (i + j)

/-- All matches of the candidate-token regex in s, in order. -/
def allTokenMatches (s : List Char) : List (List Char) :=
  (scanTokensAux s s.length 0).map (fun p => (s.drop p.1).take p.2)

/-- detectHighEntropyStrings of the source: candidate tokens that survive
the minimum length, the non-secret heuristics and the optional base64
filter, paired with their entropy, kept when the entropy reaches the
threshold. -/
noncomputable def detectHighEntropyStrings (text : List Char)
    (config : EntropyConfig) : List (List Char × ℝ) :=
  if !config.enabled then []
  else
    (allTokenMatches text).filterMap (fun candidate =>
      if candidate.length < config.minLength then none
      else if isLikelyNonSecret candidate then none
      else if config.ignoreBase64Like && isBase64Like candidate then none
      else
        let entropy := calculateEntropy candidate
        if entropy ≥ config.threshold then some (candidate, entropy)
        else none)

/-! ## Pattern catalog (SECRET_PATTERNS of src/src/patterns.ts)

The catalog entries carry the data fields of the source rules: name,
severity, group and remediation.  The detection regex of each rule is not
modelled here; the catalog claims only concern group filtering. -/

/-- One catalog rule without its regex. -/
structure CatalogRule where
  name : String
  severity : Severity
  group : String
  remediation : String
deriving DecidableEq, Repr

/-- The static rule catalog of src/src/patterns.ts, in source order. -/
def SECRET_PATTERNS : List CatalogRule := [
  ⟨"AWS Access Key ID", .high, "aws",
   "Deactivate the key in AWS IAM Console (https://console.aws.amazon.com/iam) → Users → Security credentials → Access keys → Deactivate/Delete. Create a new key and store it in environment variables or a secrets manager."⟩,
  ⟨"AWS Secret Access Key", .high, "aws",
   "Rotate the AWS secret key in IAM Console immediately. Use `aws configure` to set the new key locally and store it via GitHub Secrets or AWS Secrets Manager — never in code."⟩,
  ⟨"GitHub Personal Access Token", .high, "github",
   "Revoke this token at https://github.com/settings/tokens and generate a new one. Use GitHub Secrets (Settings → Secrets → Actions) to pass it to workflows."⟩,
  ⟨"GitHub OAuth Access Token", .high, "github",
   "Revoke this OAuth token in GitHub Developer Settings → OAuth Apps. Regenerate and store it as a GitHub Secret or environment variable."⟩,
  ⟨"GitHub App Token", .high, "github",
   "Revoke this token in the GitHub App settings and regenerate it. Store it via GitHub Secrets — never hardcode it."⟩,
  ⟨"GitHub Fine-Grained Token", .high, "github",
   "Delete this fine-grained token at https://github.com/settings/tokens?type=beta and create a new one with minimal scopes. Store it as a GitHub Secret."⟩,
  ⟨"Slack Bot Token", .high, "slack",
   "Regenerate the bot token in Slack App settings (https://api.slack.com/apps) → OAuth & Permissions → Reinstall App. Store the new token in environment variables."⟩,
  ⟨"Slack User Token", .high, "slack",
   "Regenerate the user token in Slack App settings → OAuth & Permissions → Reinstall App. Never commit Slack tokens to source control."⟩,
  ⟨"Slack Webhook URL", .high, "slack",
   "Regenerate the webhook URL in Slack App settings → Incoming Webhooks. Store it as an environment variable or secret."⟩,
  ⟨"Generic API Key", .medium, "generic",
   "Remove the API key from source code. Use environment variables (e.g., process.env.API_KEY) or a .env file (added to .gitignore) instead."⟩,
  ⟨"Generic Secret", .medium, "generic",
   "Move this secret to environment variables or a secrets manager. Rotate it if it was already pushed to a remote repository."⟩,
  ⟨"Generic Password", .medium, "generic",
   "Remove the hardcoded password. Use environment variables or a secrets manager. Change this password immediately if it was exposed."⟩,
  ⟨"Bearer Token", .medium, "generic",
   "Remove the bearer token from code. Tokens should be injected at runtime via environment variables. Revoke and rotate the token if exposed."⟩,
  ⟨"Basic Auth", .medium, "generic",
   "Remove hardcoded Basic Auth credentials. Change the password immediately and use environment variables for credentials."⟩,
  ⟨"RSA Private Key", .high, "keys",
   "Remove the private key file from the repository. Generate a new key pair with `ssh-keygen -t rsa -b 4096`. Add *.pem and *_rsa to .gitignore. The old key must be considered compromised."⟩,
  ⟨"SSH Private Key", .high, "keys",
   "Remove the SSH key from the repository. Generate a new key with `ssh-keygen -t ed25519`. Add the old public key to revocation lists on all servers where it was authorized."⟩,
  ⟨"PGP Private Key", .high, "keys",
   "Remove the PGP private key immediately. Revoke the key with `gpg --gen-revoke <key-id>` and publish the revocation certificate. Generate a new PGP key pair."⟩,
  ⟨"EC Private Key", .high, "keys",
   "Remove the EC private key. Generate a new key with `openssl ecparam -genkey -name prime256v1`. The compromised key should be rotated everywhere it was used."⟩,
  ⟨"Google API Key", .high, "google",
   "Restrict or delete the key in Google Cloud Console (https://console.cloud.google.com/apis/credentials). Create a new key with proper API and IP restrictions."⟩,
  ⟨"Google OAuth Client Secret", .medium, "google",
   "Reset the client secret in Google Cloud Console → APIs & Services → Credentials. Store it as an environment variable."⟩,
  ⟨"Stripe Live Key", .high, "stripe",
   "Roll the API key immediately in the Stripe Dashboard (https://dashboard.stripe.com/apikeys) → Roll key. This is a LIVE key — unauthorized charges may have occurred."⟩,
  ⟨"Stripe Test Key", .low, "stripe",
   "Remove the test key from code and use environment variables. While test keys cannot process real charges, they should still not be committed."⟩,
  ⟨"Stripe Restricted Key", .high, "stripe",
   "Delete and regenerate the restricted key in the Stripe Dashboard → API keys → Restricted keys. Review access logs for unauthorized usage."⟩,
  ⟨"Database Connection String", .high, "database",
   "Remove the connection string from code. Change the database password immediately. Use environment variables (e.g., DATABASE_URL) and restrict database access by IP."⟩,
  ⟨"Twilio API Key", .high, "twilio",
   "Delete and regenerate the API key in Twilio Console (https://www.twilio.com/console). Check usage logs for unauthorized calls."⟩,
  ⟨"SendGrid API Key", .high, "sendgrid",
   "Revoke the API key at https://app.sendgrid.com/settings/api_keys and create a new one with minimal permissions. Check for unauthorized email sends."⟩,
  ⟨"Mailchimp API Key", .medium, "mailchimp",
   "Regenerate the API key in Mailchimp → Account → Extras → API keys. Store it as an environment variable."⟩,
  ⟨"NPM Token", .high, "npm",
   "Revoke the token with `npm token revoke <token>` or at https://www.npmjs.com/settings/tokens. A leaked npm token can publish malicious packages under your name."⟩,
  ⟨"Discord Bot Token", .high, "discord",
   "Regenerate the bot token in Discord Developer Portal (https://discord.com/developers/applications) → Bot → Reset Token. The old token is compromised."⟩,
  ⟨"Discord Webhook URL", .medium, "discord",
   "Delete and recreate the webhook in Discord channel settings → Integrations → Webhooks. Store the URL as an environment variable."⟩,
  ⟨"Heroku API Key", .medium, "heroku",
   "Regenerate the API key at https://dashboard.heroku.com/account → API Key → Regenerate. Update all deployments using this key."⟩,
  ⟨"JSON Web Token", .medium, "jwt",
   "Remove the JWT from code. If this is a long-lived token, rotate the signing secret to invalidate it. JWTs should be generated at runtime, not hardcoded."⟩]

/-- getEnabledPatterns of the source: with no toggle record the whole
catalog is returned; with one, a rule is filtered out exactly when its group
is mapped to false.  The record of group toggles is modelled as an
association list queried with lookup. -/
def getEnabledPatterns (enabledGroups : Option (List (String × Bool))) :
    List CatalogRule :=
  match enabledGroups with
  | none => SECRET_PATTERNS
  | some toggles =>
      SECRET_PATTERNS.filter (fun p =>
        match toggles.lookup p.group with
        | some false => false
        | _ => true)

/-! ## Diff line extraction (extractAddedLines of the scanner module) -/

/-- An added line of the diff with its line number in the new file.  The
counter is an Int since a hunk header resets it to c - 1, which is -1 for
c = 0. -/
structure AddedLine where
  line : List Char
  lineNumber : Int
deriving DecidableEq, Repr

/-- Numeric value of a digit list, as parseInt on the captured digits. -/
def natOfDigits (ds : List Char) : Nat :=
  ds.foldl (fun a c => a * 10 + (c.toNat - 48)) 0

/-- Consume an optional comma-digits group of the hunk-header regex: a comma
followed by at least one digit is consumed, anything else is left alone. -/
def skipCommaDigits : List Char → List Char
  | ',' :: rest =>
      if rest.takeWhile Char.isDigit = [] then ',' :: rest
      else rest.dropWhile Char.isDigit
  | l => l

/-- Parse the hunk header regex of the source anchored at the start: at
signs, -digits with optional ,digits, space, +digits (captured) with
optional ,digits, then space and at signs; the rest of the line is free.
Returns the captured new-file start. -/
def parseHunkHeader (l : List Char) : Option Nat :=
  match l with
  | '@' :: '@' :: ' ' :: '-' :: r1 =>
      let d1 := r1.takeWhile Char.isDigit
      if d1 = [] then none
      else
        match skipCommaDigits (r1.dropWhile Char.isDigit) with
        | ' ' :: '+' :: r4 =>
            let c := r4.takeWhile Char.isDigit
            if c = [] then none
            else
              match skipCommaDigits (r4.dropWhile Char.isDigit) with
              | ' ' :: '@' :: '@' :: _ => some (natOfDigits c)
              | _ => none
        | _ => none
  | _ => none

/-- Split on newline characters as the JavaScript String.split, keeping
empty segments; the empty string yields one empty segment. -/
def splitNl : List Char → List (List Char)
  | [] => [[]]
  | c :: rest =>
      if c = '\n' then [] :: splitNl rest
      else
        match splitNl rest with
        | [] => [[c]]
        | seg :: segs => (c :: seg) :: segs

/-- The loop body of extractAddedLines over the split lines, carrying the
current new-file line counter.  The branch order follows the source: hunk
header, diff file headers, added line, deleted line, context or blank
line; any other line falls through all branches untouched. -/
def extractGo : List (List Char) → Int → List AddedLine
  | [], _ => []
  | l :: ls, n =>
      match parseHunkHeader l with
      | some c => extractGo ls ((c : Int) - 1)
      | none =>
          if ['+', '+', '+'] <+: l ∨ ['-', '-', '-'] <+: l then extractGo ls n
          else if ['+'] <+: l then ⟨l.drop 1, n + 1⟩ :: extractGo ls (n + 1)
          else if ['-'] <+: l then extractGo ls n
          else if [' '] <+: l ∨ l = [] then extractGo ls (n + 1)
          else extractGo ls n

/-- extractAddedLines of the scanner module. -/
def extractAddedLines (patch : List Char) : List AddedLine :=
  extractGo (splitNl patch) 0

/-! ## Pattern scanning (scanWithPatterns and scanLines) -/

/-- One result of executing a rule regex: the full match, the optional first
capture group, and the match index. -/
structure RegexMatch where
  full : List Char
  capture : Option (List Char)
  index : Nat

/-- A detection rule as consumed by the scanner: its regex is modelled as
the function returning all its matches on a text, as the exec loop of
scanWithPatterns produces them. -/
structure SecretPattern where
  name : String
  matcher : List Char → List RegexMatch
  severity : Severity

/-- isAllowlisted of the config module: the value matches some allowlist
regex; each regex is modelled as a predicate on the value (the source
resets lastIndex before each test, so a regex is a pure predicate). -/
def isAllowlisted (value : List Char) (allowlist : List (List Char → Bool)) :
    Bool :=
  allowlist.any (fun p => p value)

/-- The configuration fields consumed by scanLines. -/
structure Config where
  allowlist : List (List Char → Bool)
  entropy : EntropyConfig

/-- The matched value of one regex match: the capture group when present
and nonempty, otherwise the full match (the match-1-or-match-0 expression
of the source, where an empty capture is falsy). -/
def matchValue (m : RegexMatch) : List Char :=
  match m.capture with
  | some c => if c = [] then m.full else c
  | none => m.full

/-- scanWithPatterns of the scanner module: every match of every rule, with
the captured value, skipping allowlisted values. -/
def scanWithPatterns (text : List Char) (patterns : List SecretPattern)
    (allowlist : List (List Char → Bool)) :
    List (SecretPattern × List Char × Nat) :=
  patterns.flatMap (fun p =>
    (p.matcher text).filterMap (fun m =>
      if isAllowlisted (matchValue m) allowlist then none
      else some (p, matchValue m, m.index)))

/-- Fuel-driven digit rendering; the fuel only bounds the recursion depth
and any fuel above the value is enough. -/
def natDigitsAux : Nat → Nat → List Char
  | 0, _ => []
  | fuel + 1, n =>
      if n < 10 then [Char.ofNat (48 + n)]
      else natDigitsAux fuel (n / 10) ++ [Char.ofNat (48 + n % 10)]

/-- Decimal digits of a natural number, most significant first. -/
def natDigits (n : Nat) : List Char := natDigitsAux (n + 1) n

/-- Decimal rendering of an Int, as the JavaScript template literal renders
a number. -/
def intToChars (n : Int) : List Char :=
  if n < 0 then '-' :: natDigits (-n).toNat else natDigits n.toNat

/-- The dedup key of scanLines: filename, line number and matched value
joined by colons, exactly the template literal of the source. -/
def mkKey (filename : List Char) (lineNumber : Int) (value : List Char) :
    List Char :=
  filename ++ ':' :: intToChars lineNumber ++ ':' :: value

/-- The finding pushed for one pattern match: confidence is always high,
severity comes from the rule, the snippet is the masked line. -/
def mkPatternFinding (filename : List Char) (al : AddedLine)
    (p : SecretPattern) (value : List Char) : Finding :=
  { file := filename
    line := some al.lineNumber
    type := p.name
    severity := p.severity
    confidence := .high
    snippet := maskLine al.line value
    rawValue := value }

/-- The finding pushed for one entropy candidate: severity high from 5.0,
medium from 4.5, low below; confidence high from 5.0, else medium. -/
noncomputable def mkEntropyFinding (filename : List Char) (al : AddedLine)
    (value : List Char) (entropy : ℝ) : Finding :=
  { file := filename
    line := some al.lineNumber
    type := "High Entropy String"
    severity :=
      if entropy ≥ 5.0 then .high
      else if entropy ≥ 4.5 then .medium
      else .low
    confidence := if entropy ≥ 5.0 then .high else .medium
    snippet := maskLine al.line value
    rawValue := value }

/-- The pattern-match loop of scanLines: push a finding for each match
whose key is unseen, recording the key. -/
def foldPatternMatches (filename : List Char) (al : AddedLine) :
    List (SecretPattern × List Char × Nat) → List (List Char) →
    List Finding × List (List Char)
  | [], seen => ([], seen)
  | (p, value, _) :: ms, seen =>
      let key := mkKey filename al.lineNumber value
      if key ∈ seen then foldPatternMatches filename al ms seen
      else
        let rest := foldPatternMatches filename al ms (key :: seen)
        (mkPatternFinding filename al p value :: rest.1, rest.2)

/-- The entropy loop of scanLines: skip seen keys, then allowlisted values
(without recording their key), otherwise record and push. -/
noncomputable def foldEntropyMatches (filename : List Char) (al : AddedLine)
    (allowlist : List (List Char → Bool)) :
    List (List Char × ℝ) → List (List Char) →
    List Finding × List (List Char)
  | [], seen => ([], seen)
  | (value, entropy) :: ms, seen =>
      let key := mkKey filename al.lineNumber value
      if key ∈ seen then foldEntropyMatches filename al allowlist ms seen
      else if isAllowlisted value allowlist then
        foldEntropyMatches filename al allowlist ms seen
      else
        let rest := foldEntropyMatches filename al allowlist ms (key :: seen)
        (mkEntropyFinding filename al value entropy :: rest.1, rest.2)

/-- The per-line loop of scanLines over the added lines, threading the seen
set across lines; per line, pattern findings precede entropy findings. -/
noncomputable def scanLinesGo (filename : List Char) (config : Config)
    (patterns : List SecretPattern) :
    List AddedLine → List (List Char) → List Finding
  | [], _ => []
  | al :: rest, seen =>
      let pm := scanWithPatterns al.line patterns config.allowlist
      let stepP := foldPatternMatches filename al pm seen
      let stepE :=
        if config.entropy.enabled then
          foldEntropyMatches filename al config.allowlist
            (detectHighEntropyStrings al.line config.entropy) stepP.2
        else ([], stepP.2)
      stepP.1 ++ stepE.1 ++ scanLinesGo filename config patterns rest stepE.2

/-- scanLines of the scanner module: scan each added line with the rules
and the entropy detector, deduplicating by the filename-line-value key. -/
noncomputable def scanLines (filename : List Char)
    (addedLines : List AddedLine) (config : Config)
    (patterns : List SecretPattern) : List Finding :=
  scanLinesGo filename config patterns addedLines []

/-! ## Severity gate (shouldFail of the scanner module) -/

/-- Numeric rank of a severity, as in the severityOrder record of the
source: low 1, medium 2, high 3. -/
def severityOrder : Severity → Nat
  | .low => 1
  | .medium => 2
  | .high => 3

/-- The fail threshold: a severity, or the off value that never fails. -/
inductive FailOn where
  | sev : Severity → FailOn
  | off : FailOn
deriving DecidableEq, Repr

/-- shouldFail of the scanner module: off never fails, otherwise fail when
some finding reaches the threshold rank. -/
def shouldFail (findings : List Finding) (failOn : FailOn) : Bool :=
  match failOn with
  | .off => false
  | .sev t => findings.any (fun f => severityOrder f.severity ≥ severityOrder t)

/-! ## Spec-side definitions used for refinement comparisons -/

/-- The Shannon entropy formula as the spec states it: minus the sum over
the characters of the string of p times log2 of p, with p the relative
frequency. -/
noncomputable def shannonEntropySpec (s : List Char) : ℝ :=
  -∑ c ∈ s.toFinset,
      ((s.count c : ℝ) / (s.length : ℝ))
        * Real.logb 2 ((s.count c : ℝ) / (s.length : ℝ))

/-- One step of the diff walk exactly as claim C4 words it, with its final
clause taken literally: every line that is not a hunk header, a file
header, an addition or a deletion advances the counter. -/
def diffStepClaimOrig (n : Int) (l : List Char) : Int × Option AddedLine :=
  match parseHunkHeader l with
  | some c => ((c : Int) - 1, none)
  | none =>
      if ['+', '+', '+'] <+: l ∨ ['-', '-', '-'] <+: l then (n, none)
      else if ['+'] <+: l then (n + 1, some ⟨l.drop 1, n + 1⟩)
      else if ['-'] <+: l then (n, none)
      else (n + 1, none)

/-- One step of the diff walk as the amended claim words it: a context line
(leading space) or a blank line advances the counter; any remaining line is
ignored. -/
def diffStepClaim (n : Int) (l : List Char) : Int × Option AddedLine :=
  match parseHunkHeader l with
  | some c => ((c : Int) - 1, none)
  | none =>
      if ['+', '+', '+'] <+: l ∨ ['-', '-', '-'] <+: l then (n, none)
      else if ['+'] <+: l then (n + 1, some ⟨l.drop 1, n + 1⟩)
      else if ['-'] <+: l then (n, none)
      else if [' '] <+: l ∨ l = [] then (n + 1, none)
      else (n, none)

/-- Run a claim-side diff step over the split lines, collecting emitted
added lines. -/
def runDiffSteps (step : Int → List Char → Int × Option AddedLine) :
    List (List Char) → Int → List AddedLine
  | [], _ => []
  | l :: ls, n =>
      match step n l with
      | (n', none) => runDiffSteps step ls n'
      | (n', some a) => a :: runDiffSteps step ls n'

/-- The extractor claim C4 literally describes (with the always-advancing
final clause). -/
def extractAddedLinesClaimOrig (patch : List Char) : List AddedLine :=
  runDiffSteps diffStepClaimOrig (splitNl patch) 0

/-- The extractor the amended claim C4 describes. -/
def extractAddedLinesClaim (patch : List Char) : List AddedLine :=
  runDiffSteps diffStepClaim (splitNl patch) 0

/-- Number of occurrences of target in s, counting every start index at
which target is a prefix of the rest of s. -/
def occCount (s target : List Char) : Nat :=
  ((Finset.range (s.length + 1)).filter (fun i => target <+: s.drop i)).card

/-! ## Concrete scenario used by counterexamples and witnesses

A single scan in which the value abcdefghij0123456789 (20 distinct
characters, entropy log2 20, about 4.32) appears alone on one added line
and behind an apikey= prefix on a second added line with the same line
number. -/

/-- The 20-character candidate value with 20 distinct characters. -/
def cexToken : List Char := "abcdefghij0123456789".toList

/-- The second scanned line: the candidate behind an apikey= prefix. -/
def cexLine2 : List Char := "apikey=abcdefghij0123456789".toList

/-- Model of the anchored regex apikey= followed by a captured remainder,
global: one match on a text starting with apikey=, none otherwise. -/
def apikeyMatcher (text : List Char) : List RegexMatch :=
  if "apikey=".toList <+: text then [⟨text, some (text.drop 7), 0⟩] else []

/-- A rule built on that matcher, standing in for the Generic API Key rule
at the two scanned lines. -/
def cexPattern : SecretPattern :=
  ⟨"Generic API Key", apikeyMatcher, .medium⟩

/-- Entropy settings for the scenario: enabled, minimum length 20,
threshold 3, base64-like values not ignored. -/
noncomputable def cexConfig : Config :=
  ⟨[], ⟨true, 20, 3, false⟩⟩

/-- The two added lines of the scenario, sharing line number 1. -/
def cexLines : List AddedLine := [⟨cexToken, 1⟩, ⟨cexLine2, 1⟩]

/-- The single finding the scenario produces: the entropy finding for the
candidate on the first line. -/
noncomputable def cexFinding : Finding :=
  mkEntropyFinding ['f'] ⟨cexToken, 1⟩ cexToken (calculateEntropy cexToken)

/-! ## Helper lemmas -/

theorem foldl_sub_map_sum (f : Char → ℝ) (l : List Char) (a : ℝ) :
    l.foldl (fun acc c => acc - f c) a = a - (l.map f).sum := by
  induction l generalizing a with
  | nil => simp
  | cons c cs ih => simp only [List.foldl_cons, List.map_cons, List.sum_cons, ih]; ring

theorem calculateEntropy_eq_neg_sum (s : List Char) (hs : s.length ≠ 0) :
    calculateEntropy s =
      -((s.dedup.map (fun c =>
          ((s.count c : ℝ) / (s.length : ℝ))
            * Real.logb 2 ((s.count c : ℝ) / (s.length : ℝ)))).sum) := by
  unfold calculateEntropy
  rw [if_neg hs, foldl_sub_map_sum]
  ring

/-! ## Claim C9: calculateEntropy is the Shannon entropy of the character
multiset -/

/-- C9: calculateEntropy returns 0 for the empty string, is invariant under
permutation of the characters of the input, and equals the Shannon entropy
formula of the spec over the multiset of characters. -/
theorem claim_C9 :
    calculateEntropy [] = 0 ∧
    (∀ s t : List Char, s.Perm t → calculateEntropy s = calculateEntropy t) ∧
    (∀ s : List Char, calculateEntropy s = shannonEntropySpec s) := by
  refine ⟨rfl, ?_, ?_⟩
  · intro s t h
    by_cases hs : s.length = 0
    · have ht : t.length = 0 := by rw [← h.length_eq]; exact hs
      unfold calculateEntropy
      rw [if_pos hs, if_pos ht]
    · have ht : t.length ≠ 0 := by rw [← h.length_eq]; exact hs
      rw [calculateEntropy_eq_neg_sum s hs, calculateEntropy_eq_neg_sum t ht]
      have hf : (fun c => ((s.count c : ℝ) / (s.length : ℝ))
            * Real.logb 2 ((s.count c : ℝ) / (s.length : ℝ)))
          = (fun c => ((t.count c : ℝ) / (t.length : ℝ))
            * Real.logb 2 ((t.count c : ℝ) / (t.length : ℝ))) := by
        funext c
        rw [h.count_eq, h.length_eq]
      rw [hf, ((h.dedup).map _).sum_eq]
  · intro s
    by_cases hs : s.length = 0
    · have : s = [] := List.length_eq_zero.mp hs
      subst this
      simp [shannonEntropySpec, calculateEntropy]
    · rw [calculateEntropy_eq_neg_sum s hs]
      unfold shannonEntropySpec
      have h1 : s.toFinset = s.dedup.toFinset :=
        List.toFinset.ext_iff.mpr (fun _ => List.mem_dedup.symm)
      rw [h1, List.sum_toFinset _ s.nodup_dedup]

/-- Witness for C9: permutation invariance applied at a two-character
input. -/
theorem claim_C9_witness :
    calculateEntropy ['a', 'b'] = calculateEntropy ['b', 'a'] :=
  claim_C9.2.1 _ _ (List.Perm.swap 'b' 'a' [])

/-! ## Claim C7: the severity gate -/

/-- C7: shouldFail is true exactly when the threshold is a severity rank
reached by some finding, off never fails, and the gate is monotone when the
threshold is raised from medium to high. -/
theorem claim_C7 (findings : List Finding) :
    (∀ failOn : FailOn, shouldFail findings failOn = true ↔
        ∃ t, failOn = FailOn.sev t ∧
          ∃ f ∈ findings, severityOrder t ≤ severityOrder f.severity) ∧
    shouldFail findings .off = false ∧
    (shouldFail findings (.sev .medium) = false →
      shouldFail findings (.sev .high) = false) := by
  refine ⟨?_, rfl, ?_⟩
  · intro failOn
    cases failOn with
    | off => simp [shouldFail]
    | sev t =>
        simp only [shouldFail, List.any_eq_true, decide_eq_true_eq,
          FailOn.sev.injEq, ge_iff_le]
        constructor
        · rintro ⟨f, hf, hle⟩
          exact ⟨t, rfl, f, hf, hle⟩
        · rintro ⟨t', ht', f, hf, hle⟩
          subst ht'
          exact ⟨f, hf, hle⟩
  · intro h
    simp only [shouldFail, List.any_eq_false, decide_eq_true_eq, ge_iff_le] at h ⊢
    intro f hf
    have h2 := h f hf
    have h3 : severityOrder Severity.medium = 2 := rfl
    have h4 : severityOrder Severity.high = 3 := rfl
    omega

/-- Witness for C7: a list with one low finding passes at medium, and the
gate instance concludes it also passes at high. -/
theorem claim_C7_witness :
    shouldFail [⟨[], none, "t", .low, .high, [], []⟩] (.sev .medium) = false ∧
    shouldFail [⟨[], none, "t", .low, .high, [], []⟩] (.sev .high) = false :=
  ⟨by decide, (claim_C7 _).2.2 (by decide)⟩

/-! ## Claim C8: catalog filtering by group toggles -/

/-- C8: with no toggle map the whole catalog is returned, and with one a
catalog rule is returned exactly when its group is not mapped to false. -/
theorem claim_C8 :
    getEnabledPatterns none = SECRET_PATTERNS ∧
    ∀ (toggles : List (String × Bool)) (p : CatalogRule),
      p ∈ getEnabledPatterns (some toggles) ↔
        p ∈ SECRET_PATTERNS ∧ toggles.lookup p.group ≠ some false := by
  refine ⟨rfl, ?_⟩
  intro toggles p
  simp only [getEnabledPatterns, List.mem_filter]
  constructor
  · rintro ⟨hmem, hfilter⟩
    refine ⟨hmem, ?_⟩
    intro hlook
    rw [hlook] at hfilter
    simp at hfilter
  · rintro ⟨hmem, hlook⟩
    refine ⟨hmem, ?_⟩
    cases h : toggles.lookup p.group with
    | none => rfl
    | some b =>
        cases b with
        | false => exact absurd h hlook
        | true => rfl

/-! ## Claim C4: the diff walk -/

theorem extractGo_eq_runDiffSteps (ls : List (List Char)) (n : Int) :
    extractGo ls n = runDiffSteps diffStepClaim ls n := by
  induction ls generalizing n with
  | nil => rfl
  | cons l rest ih =>
      have hrun : runDiffSteps diffStepClaim (l :: rest) n =
          (match diffStepClaim n l with
           | (n', none) => runDiffSteps diffStepClaim rest n'
           | (n', some a) => a :: runDiffSteps diffStepClaim rest n') := rfl
      rw [hrun]
      unfold extractGo
      cases h : parseHunkHeader l with
      | some c =>
          have hstep : diffStepClaim n l = ((c : Int) - 1, none) := by
            unfold diffStepClaim; rw [h]
          rw [hstep]
          exact ih _
      | none =>
          by_cases h1 : ['+', '+', '+'] <+: l ∨ ['-', '-', '-'] <+: l
          · have hstep : diffStepClaim n l = (n, none) := by
              unfold diffStepClaim; rw [h]; rw [if_pos h1]
            rw [hstep, if_pos h1]
            exact ih _
          · rw [if_neg h1]
            by_cases h2 : ['+'] <+: l
            · have hstep : diffStepClaim n l = (n + 1, some ⟨l.drop 1, n + 1⟩) := by
                unfold diffStepClaim; rw [h]; rw [if_neg h1, if_pos h2]
              rw [hstep, if_pos h2]
              exact congrArg (List.cons _) (ih _)
            · rw [if_neg h2]
              by_cases h3 : ['-'] <+: l
              · have hstep : diffStepClaim n l = (n, none) := by
                  unfold diffStepClaim; rw [h]; rw [if_neg h1, if_neg h2, if_pos h3]
                rw [hstep, if_pos h3]
                exact ih _
              · rw [if_neg h3]
                by_cases h4 : [' '] <+: l ∨ l = []
                · have hstep : diffStepClaim n l = (n + 1, none) := by
                    unfold diffStepClaim
                    rw [h]; rw [if_neg h1, if_neg h2, if_neg h3, if_pos h4]
                  rw [hstep, if_pos h4]
                  exact ih _
                · have hstep : diffStepClaim n l = (n, none) := by
                    unfold diffStepClaim
                    rw [h]; rw [if_neg h1, if_neg h2, if_neg h3, if_neg h4]
                  rw [hstep, if_neg h4]
                  exact ih _

/-- C4 (amended): extractAddedLines walks the patch exactly as the claim
describes, with the final clause restricted to context (leading space) and
blank lines; other unrecognized lines are ignored. -/
theorem claim_C4 (patch : List Char) :
    extractAddedLines patch = extractAddedLinesClaim patch := by
  unfold extractAddedLines extractAddedLinesClaim
  exact extractGo_eq_runDiffSteps _ _

/-- Counterexample to C4 as stated: the junk line x (no leading space) does
not advance the counter in the code, but does in the claim, shifting the
emitted line number of the following addition. -/
theorem claim_C4_counterexample :
    extractAddedLines ("@@ -1 +1 @@\nx\n+y".toList) ≠
      extractAddedLinesClaimOrig ("@@ -1 +1 @@\nx\n+y".toList) := by
  decide

/-! ## Claim C5: patches without hunk headers -/

theorem extractGo_eq_nil (ls : List (List Char)) (n : Int)
    (h1 : ∀ l ∈ ls, parseHunkHeader l = none)
    (h2 : ∀ l ∈ ls, ['+'] <+: l → ['+', '+', '+'] <+: l) :
    extractGo ls n = [] := by
  induction ls generalizing n with
  | nil => rfl
  | cons l rest ih =>
      have ih' : ∀ m : Int, extractGo rest m = [] := fun m =>
        ih m (fun x hx => h1 x (List.mem_cons_of_mem _ hx))
          (fun x hx => h2 x (List.mem_cons_of_mem _ hx))
      unfold extractGo
      rw [h1 l (List.mem_cons_self _ _)]
      by_cases h3 : ['+', '+', '+'] <+: l ∨ ['-', '-', '-'] <+: l
      · rw [if_pos h3]; exact ih' _
      · rw [if_neg h3]
        by_cases h4 : ['+'] <+: l
        · exact absurd (Or.inl (h2 l (List.mem_cons_self _ _) h4)) h3
        · rw [if_neg h4]
          split_ifs <;> exact ih' _

/-- C5 (amended): a patch with no hunk header and no added line (a line
starting with one plus that is not a file header) extracts to the empty
list.  The original claim needs the second hypothesis: a bare added line is
emitted even before any hunk header. -/
theorem claim_C5 (patch : List Char)
    (h1 : ∀ l ∈ splitNl patch, parseHunkHeader l = none)
    (h2 : ∀ l ∈ splitNl patch, ['+'] <+: l → ['+', '+', '+'] <+: l) :
    extractAddedLines patch = [] := by
  unfold extractAddedLines
  exact extractGo_eq_nil _ _ h1 h2

/-- Witness for C5 at a concrete header-free, addition-free patch. -/
theorem claim_C5_witness :
    extractAddedLines (" a\n-b\n--- c".toList) = [] :=
  claim_C5 _ (by decide) (by decide)

/-- Counterexample to C5 as stated: the patch consisting of the single line
plus-x has no hunk header, yet one added line is extracted (with line
number 1). -/
theorem claim_C5_counterexample :
    (∀ l ∈ splitNl ("+x".toList), parseHunkHeader l = none) ∧
    extractAddedLines ("+x".toList) = [⟨['x'], 1⟩] := by
  decide

/-! ## Claim C6: maskSecret -/

/-- C6 (amended): for a positive showChars, a value short enough is masked
entirely with at most ten stars; a longer value keeps its first and last
showChars characters around a capped star run; and the mask never contains
the value when the value has a non-star character strictly inside its
middle section (an all-star middle makes maskSecret a fixpoint, see the
counterexample). -/
theorem claim_C6 (value : List Char) (showChars : Nat) (hsc : 1 ≤ showChars) :
    (value.length ≤ 2 * showChars + 3 →
      (∀ c ∈ maskSecret value showChars, c = '*') ∧
      (maskSecret value showChars).length ≤ 10) ∧
    (2 * showChars + 3 < value.length →
      maskSecret value showChars =
        value.take showChars ++
          List.replicate (min (value.length - 2 * showChars) 20) '*' ++
          value.drop (value.length - showChars)) ∧
    ((∃ i, showChars ≤ i ∧ i + showChars < value.length ∧
        value[i]? ≠ some '*') →
      ¬ value <:+: maskSecret value showChars) := by
  have hallstar : value.length ≤ showChars * 2 + 3 →
      (∀ c ∈ maskSecret value showChars, c = '*') ∧
      (maskSecret value showChars).length ≤ 10 := by
    intro h
    unfold maskSecret
    by_cases hv : value = []
    · rw [if_pos hv]
      refine ⟨fun c hc => ?_, by simp⟩
      simpa using hc
    · rw [if_neg hv, if_pos h]
      refine ⟨fun c hc => List.eq_of_mem_replicate hc, ?_⟩
      rw [List.length_replicate]
      omega
  have hshape : 2 * showChars + 3 < value.length →
      maskSecret value showChars =
        value.take showChars ++
          List.replicate (min (value.length - 2 * showChars) 20) '*' ++
          value.drop (value.length - showChars) := by
    intro h
    have hv : value ≠ [] := by
      intro e
      subst e
      simp at h
    unfold maskSecret sliceLast
    rw [if_neg hv, if_neg (by omega), if_neg (by omega : ¬ showChars = 0)]
    have h2 : value.length - showChars * 2 = value.length - 2 * showChars := by
      omega
    rw [h2]
  refine ⟨fun h => hallstar (by omega), hshape, ?_⟩
  rintro ⟨i, hi1, hi2, hi3⟩ hinf
  by_cases hshort : value.length ≤ showChars * 2 + 3
  · have hi_lt : i < value.length := by omega
    have hgetc : value[i]? = some value[i] := List.getElem?_eq_getElem hi_lt
    have hmem : value[i] ∈ value := List.getElem_mem hi_lt
    have hstar := (hallstar hshort).1 _ (hinf.subset hmem)
    rw [hgetc, hstar] at hi3
    exact hi3 rfl
  · push_neg at hshort
    have hsh : 2 * showChars + 3 < value.length := by omega
    have hm := hshape hsh
    set m := min (value.length - 2 * showChars) 20 with hm_def
    have hlen_take : (value.take showChars).length = showChars := by
      rw [List.length_take]
      omega
    have hlen_drop : (value.drop (value.length - showChars)).length = showChars := by
      rw [List.length_drop]
      omega
    have hmask_len : (maskSecret value showChars).length = showChars + m + showChars := by
      rw [hm]
      simp only [List.length_append, hlen_take, hlen_drop, List.length_replicate]
    have hVlen := hinf.length_le
    have hlen_eq : value.length = (maskSecret value showChars).length := by omega
    have heq : value = maskSecret value showChars := hinf.eq_of_length hlen_eq
    have hge : (maskSecret value showChars)[i]? = some '*' := by
      rw [hm, List.append_assoc]
      rw [List.getElem?_append_right (by rw [hlen_take]; omega)]
      rw [hlen_take]
      rw [List.getElem?_append, List.length_replicate, if_pos (by omega : i - showChars < m)]
      rw [List.getElem?_replicate, if_pos (by omega)]
    rw [← heq] at hge
    exact hi3 hge

/-- Witness for C6: the ten-character value abcdefghij with the default
showChars 3 satisfies the middle-non-star hypothesis, so its mask does not
contain it. -/
theorem claim_C6_witness :
    ¬ ("abcdefghij".toList <:+: maskSecret ("abcdefghij".toList) 3) :=
  (claim_C6 ("abcdefghij".toList) 3 (by decide)).2.2
    ⟨3, by decide, by decide, by decide⟩

/-- Counterexample to C6 as stated: the four-star value is its own mask, so
the mask contains the original value as a substring of length 4 greater
than showChars 3. -/
theorem claim_C6_counterexample :
    maskSecret ['*', '*', '*', '*'] 3 = ['*', '*', '*', '*'] ∧
    (['*', '*', '*', '*'] <:+: maskSecret ['*', '*', '*', '*'] 3) ∧
    3 < (['*', '*', '*', '*'] : List Char).length := by
  have h : maskSecret ['*', '*', '*', '*'] 3 = ['*', '*', '*', '*'] := by decide
  exact ⟨h, by rw [h], by decide⟩

/-! ## Occurrence lemmas for maskLine -/

theorem prefix_drop_length (V s : List Char) (i : Nat) (hV : V ≠ [])
    (h : V <+: s.drop i) : i + V.length ≤ s.length := by
  have h1 := h.length_le
  rw [List.length_drop] at h1
  by_cases hi : s.length ≤ i
  · rw [List.drop_eq_nil_of_le hi, List.prefix_nil] at h
    exact absurd h hV
  · omega

theorem prefix_drop_getElem (V s : List Char) (i j : Nat)
    (h : V <+: s.drop i) (hj : j < V.length) : s[i + j]? = V[j]? := by
  obtain ⟨u, hu⟩ := h
  rw [← List.getElem?_drop, ← hu, List.getElem?_append_left hj]

theorem firstIndexOf_none (s t : List Char) (h : firstIndexOf s t = none) :
    ∀ j, ¬ t <+: s.drop j := by
  induction s with
  | nil =>
      intro j hj
      rw [List.drop_nil] at hj
      rw [firstIndexOf] at h
      by_cases ht : t <+: ([] : List Char)
      · rw [if_pos ht] at h
        simp at h
      · exact ht hj
  | cons c cs ih =>
      intro j hj
      rw [firstIndexOf] at h
      by_cases ht : t <+: (c :: cs)
      · rw [if_pos ht] at h
        simp at h
      · rw [if_neg ht] at h
        have h' : firstIndexOf cs t = none := by
          cases hcs : firstIndexOf cs t with
          | none => rfl
          | some k => rw [hcs] at h; simp at h
        cases j with
        | zero => exact ht (by simpa using hj)
        | succ j' => exact ih h' j' (by simpa using hj)

theorem firstIndexOf_some (s t : List Char) (i : Nat)
    (h : firstIndexOf s t = some i) :
    t <+: s.drop i ∧ ∀ j, j < i → ¬ t <+: s.drop j := by
  induction s generalizing i with
  | nil =>
      rw [firstIndexOf] at h
      by_cases ht : t <+: ([] : List Char)
      · rw [if_pos ht] at h
        simp only [Option.some.injEq] at h
        subst h
        exact ⟨by simpa using ht, fun j hj => by omega⟩
      · rw [if_neg ht] at h
        simp at h
  | cons c cs ih =>
      rw [firstIndexOf] at h
      by_cases ht : t <+: (c :: cs)
      · rw [if_pos ht] at h
        simp only [Option.some.injEq] at h
        subst h
        exact ⟨by simpa using ht, fun j hj => by omega⟩
      · rw [if_neg ht] at h
        cases hcs : firstIndexOf cs t with
        | none => rw [hcs] at h; simp at h
        | some k =>
            rw [hcs] at h
            simp only [Option.map_some', Option.some.injEq] at h
            obtain ⟨h1, h2⟩ := ih k hcs
            subst h
            refine ⟨by simpa using h1, ?_⟩
            intro j hj
            cases j with
            | zero => simpa using ht
            | succ j' => simpa using h2 j' (by omega)

theorem firstIndexOf_of_prefix (s t : List Char) (j : Nat)
    (h : t <+: s.drop j) : ∃ i, firstIndexOf s t = some i := by
  cases hfi : firstIndexOf s t with
  | some i => exact ⟨i, rfl⟩
  | none => exact absurd h (firstIndexOf_none s t hfi j)

theorem occ_split (s t : List Char) (i : Nat) (h : t <+: s.drop i) :
    s = s.take i ++ t ++ s.drop (i + t.length) := by
  obtain ⟨u, hu⟩ := h
  have h2 : s.drop (i + t.length) = u := by
    rw [← List.drop_drop, ← hu, List.drop_left]
  conv_lhs => rw [← List.take_append_drop i s, ← hu]
  rw [h2, List.append_assoc]

theorem infix_exists_drop (V w : List Char) (h : V <:+: w) :
    ∃ i, V <+: w.drop i := by
  obtain ⟨s, t, hw⟩ := h
  refine ⟨s.length, ?_⟩
  rw [← hw, List.append_assoc, List.drop_left]
  exact ⟨t, rfl⟩

theorem infix_of_prefix_drop (V w : List Char) (i : Nat)
    (h : V <+: w.drop i) : V <:+: w :=
  List.infix_iff_prefix_suffix.mpr ⟨w.drop i, h, List.drop_suffix i w⟩

theorem prefix_drop_take (V u : List Char) (i k : Nat)
    (h : V <+: u.drop i) (hk : i + V.length ≤ k) :
    V <+: (u.take k).drop i := by
  rw [List.drop_take]
  rw [List.prefix_iff_eq_take] at h ⊢
  rw [List.take_take, min_eq_left (by omega)]
  exact h

theorem prefix_drop_of_take (V u : List Char) (i k : Nat)
    (h : V <+: (u.take k).drop i) : V <+: u.drop i := by
  rw [List.drop_take] at h
  exact h.trans (List.take_prefix _ _)

theorem occCount_one (s t : List Char) (hV : t ≠ [])
    (h : occCount s t = 1) :
    ∃ p, (t <+: s.drop p) ∧ ∀ j, t <+: s.drop j → j = p := by
  rw [occCount, Finset.card_eq_one] at h
  obtain ⟨p, hp⟩ := h
  have hpmem : p ∈ (Finset.range (s.length + 1)).filter
      (fun i => t <+: s.drop i) := by
    rw [hp]
    exact Finset.mem_singleton_self p
  rw [Finset.mem_filter] at hpmem
  refine ⟨p, hpmem.2, ?_⟩
  intro j hj
  have hjlen := prefix_drop_length t s j hV hj
  have hjmem : j ∈ (Finset.range (s.length + 1)).filter
      (fun i => t <+: s.drop i) := by
    rw [Finset.mem_filter, Finset.mem_range]
    have h0 : 0 < t.length := List.length_pos.mpr hV
    exact ⟨by omega, hj⟩
  rw [hp, Finset.mem_singleton] at hjmem
  exact hjmem

/-- Core of the maskLine claim: when V occurs exactly once in the line at
index p, contains no star, and the mask keeps only a short shared front and
back around a nonempty star run, V does not reappear in the replaced
line. -/
theorem not_infix_masked
    (line V mask : List Char) (p a b : Nat)
    (hVne : V ≠ [])
    (hstar : ∀ c ∈ V, c ≠ '*')
    (hocc : V <+: line.drop p)
    (huniq : ∀ j, V <+: line.drop j → j = p)
    (ha : a < V.length) (hb : b < V.length)
    (hmid : a + b < mask.length)
    (hstars : ∀ k, a ≤ k → k + b < mask.length → mask[k]? = some '*')
    (hfront : mask.take a = V.take a)
    (hback : mask.drop (mask.length - b) = V.drop (V.length - b)) :
    ¬ V <:+: (line.take p ++ mask ++ line.drop (p + V.length)) := by
  intro hinf
  obtain ⟨i, hi⟩ := infix_exists_drop _ _ hinf
  set w := line.take p ++ mask ++ line.drop (p + V.length) with hw
  have hplen : p + V.length ≤ line.length := prefix_drop_length V line p hVne hocc
  have hVpos : 0 < V.length := List.length_pos.mpr hVne
  have hpre : (line.take p).length = p := by rw [List.length_take]; omega
  have hsplit : line = line.take p ++ V ++ line.drop (p + V.length) :=
    occ_split line V p hocc
  by_cases hleft : i + V.length ≤ p + a
  · have e1 : w.take (p + a) = line.take p ++ mask.take a := by
      conv_lhs => rw [hw, List.append_assoc,
        show p + a = (line.take p).length + a from by rw [hpre]]
      rw [List.take_append,
        List.take_append_of_le_length (by omega : a ≤ mask.length)]
    have e2 : line.take (p + a) = line.take p ++ V.take a := by
      conv_lhs => rw [hsplit, List.append_assoc,
        show p + a = (line.take p).length + a from by rw [hpre]]
      rw [List.take_append, List.take_append_of_le_length (Nat.le_of_lt ha)]
    have hagree : w.take (p + a) = line.take (p + a) := by
      rw [e1, e2, hfront]
    have hVline : V <+: line.drop i := by
      have h1 := prefix_drop_take V w i (p + a) hi (by omega)
      rw [hagree] at h1
      exact prefix_drop_of_take V line i (p + a) h1
    have := huniq i hVline
    omega
  · by_cases hright : p + (mask.length - b) ≤ i
    · have e3 : w.drop (p + (mask.length - b)) =
          mask.drop (mask.length - b) ++ line.drop (p + V.length) := by
        conv_lhs => rw [hw, List.append_assoc,
          show p + (mask.length - b) = (line.take p).length + (mask.length - b)
            from by rw [hpre]]
        rw [List.drop_append,
          List.drop_append_of_le_length (by omega : mask.length - b ≤ mask.length)]
      have e4 : line.drop (p + (V.length - b)) =
          V.drop (V.length - b) ++ line.drop (p + V.length) := by
        conv_lhs => rw [hsplit, List.append_assoc,
          show p + (V.length - b) = (line.take p).length + (V.length - b)
            from by rw [hpre]]
        rw [List.drop_append,
          List.drop_append_of_le_length (by omega : V.length - b ≤ V.length)]
      have hagree : w.drop (p + (mask.length - b)) =
          line.drop (p + (V.length - b)) := by
        rw [e3, e4, hback]
      have h2 : V <+: line.drop
          ((p + (V.length - b)) + (i - (p + (mask.length - b)))) := by
        have h3 : w.drop i =
            (w.drop (p + (mask.length - b))).drop (i - (p + (mask.length - b))) := by
          rw [List.drop_drop]
          congr 1
          omega
        rw [h3, hagree, List.drop_drop] at hi
        exact hi
      have := huniq _ h2
      omega
    · push_neg at hleft hright
      have hk3 : max i (p + a) < i + V.length := Nat.max_lt.mpr ⟨by omega, hleft⟩
      have hk4 : max i (p + a) < p + (mask.length - b) :=
        Nat.max_lt.mpr ⟨hright, by omega⟩
      have hk1 : i ≤ max i (p + a) := Nat.le_max_left _ _
      have hk2 : p + a ≤ max i (p + a) := Nat.le_max_right _ _
      have hwk : w[max i (p + a)]? = some '*' := by
        rw [hw, List.append_assoc,
          List.getElem?_append_right (by rw [hpre]; omega), hpre,
          List.getElem?_append_left (by omega : max i (p + a) - p < mask.length)]
        exact hstars (max i (p + a) - p) (by omega) (by omega)
      have hVk := prefix_drop_getElem V w i (max i (p + a) - i) hi (by omega)
      rw [show i + (max i (p + a) - i) = max i (p + a) from by omega, hwk] at hVk
      exact hstar '*' (List.getElem?_mem hVk.symm) rfl

/-- Gluing lemma for the truncation branch of maskLine: surrounding a slice
of w with dots cannot reintroduce a dot-free V that w itself does not
contain. -/
theorem not_infix_dots (V w mid pre suf : List Char)
    (hVne : V ≠ [])
    (hdot : ∀ c ∈ V, c ≠ '.')
    (hpre : ∀ c ∈ pre, c = '.')
    (hsuf : ∀ c ∈ suf, c = '.')
    (hmid : mid <:+: w)
    (hnw : ¬ V <:+: w) :
    ¬ V <:+: (pre ++ mid ++ suf) := by
  intro hinf
  obtain ⟨i, hi⟩ := infix_exists_drop _ _ hinf
  set w' := pre ++ mid ++ suf with hw'
  have hVpos : 0 < V.length := List.length_pos.mpr hVne
  have hiw : i + V.length ≤ w'.length := prefix_drop_length V w' i hVne hi
  by_cases h1 : i < pre.length
  · have hV0 := prefix_drop_getElem V w' i 0 hi hVpos
    rw [Nat.add_zero, hw', List.append_assoc,
      List.getElem?_append_left (by omega : i < pre.length)] at hV0
    have hmem : pre[i]? = some pre[i] :=
      List.getElem?_eq_getElem (by omega)
    rw [hmem] at hV0
    have hdot0 : pre[i] = '.' := hpre _ (List.getElem_mem (by omega))
    have : V[0]? = some '.' := by rw [← hV0, hdot0]
    exact hdot '.' (List.getElem?_mem this) rfl
  · push_neg at h1
    by_cases h2 : i + V.length ≤ pre.length + mid.length
    · have hVmid : V <+: mid.drop (i - pre.length) := by
        have h3 : w'.drop i = (mid ++ suf).drop (i - pre.length) := by
          conv_lhs => rw [hw', List.append_assoc,
            show i = pre.length + (i - pre.length) from by omega]
          rw [List.drop_append]
        rw [h3] at hi
        have h4 := prefix_drop_take V (mid ++ suf) (i - pre.length) mid.length
          hi (by omega)
        rw [List.take_left] at h4
        exact h4
      exact hnw ((infix_of_prefix_drop V mid _ hVmid).trans hmid)
    · push_neg at h2
      have hVlast := prefix_drop_getElem V w' i (V.length - 1) hi (by omega)
      rw [show i + (V.length - 1) = i + V.length - 1 from by omega, hw'] at hVlast
      have hlen12 : (pre ++ mid).length = pre.length + mid.length :=
        List.length_append _ _
      rw [List.getElem?_append_right (by rw [hlen12]; omega)] at hVlast
      have hin : i + V.length - 1 - (pre ++ mid).length < suf.length := by
        rw [hw'] at hiw
        simp only [List.length_append] at hiw
        rw [hlen12]
        omega
      rw [List.getElem?_eq_getElem hin] at hVlast
      have hdotl : suf[i + V.length - 1 - (pre ++ mid).length] = '.' :=
        hsuf _ (List.getElem_mem hin)
      rw [hdotl] at hVlast
      exact hdot '.' (List.getElem?_mem hVlast.symm) rfl

/-- Instantiation of the core lemma at the two shapes of maskSecret with
the default showChars 3. -/
theorem not_infix_maskSecret (line V : List Char) (p : Nat)
    (hVne : V ≠ [])
    (hstar : ∀ c ∈ V, c ≠ '*')
    (hocc : V <+: line.drop p)
    (huniq : ∀ j, V <+: line.drop j → j = p) :
    ¬ V <:+: (line.take p ++ maskSecret V ++ line.drop (p + V.length)) := by
  have hVpos : 0 < V.length := List.length_pos.mpr hVne
  by_cases hlen : V.length ≤ 3 * 2 + 3
  · have hM : maskSecret V = List.replicate (min V.length 10) '*' := by
      unfold maskSecret
      rw [if_neg hVne, if_pos (by omega)]
    refine not_infix_masked line V _ p 0 0 hVne hstar hocc huniq
      hVpos hVpos ?_ ?_ ?_ ?_
    · rw [hM, List.length_replicate]
      omega
    · intro k _ hk
      rw [hM] at hk ⊢
      rw [List.length_replicate] at hk
      exact List.getElem?_replicate_of_lt (by omega)
    · simp
    · rw [Nat.sub_zero, Nat.sub_zero, List.drop_length, List.drop_length]
  · push_neg at hlen
    set m := min (V.length - 3 * 2) 20 with hmdef
    have hM : maskSecret V =
        V.take 3 ++ List.replicate m '*' ++ V.drop (V.length - 3) := by
      unfold maskSecret sliceLast
      rw [if_neg hVne, if_neg (by omega), if_neg (by omega : ¬ (3 : Nat) = 0)]
    have hlenM : (maskSecret V).length = 3 + m + 3 := by
      rw [hM]
      simp only [List.length_append, List.length_take, List.length_replicate,
        List.length_drop]
      omega
    refine not_infix_masked line V _ p 3 3 hVne hstar hocc huniq
      (by omega) (by omega) ?_ ?_ ?_ ?_
    · rw [hlenM]
      omega
    · intro k hk3 hkm
      rw [hlenM] at hkm
      rw [hM, List.append_assoc,
        List.getElem?_append_right (by rw [List.length_take]; omega),
        List.length_take, min_eq_left (by omega),
        List.getElem?_append_left (by rw [List.length_replicate]; omega)]
      exact List.getElem?_replicate_of_lt (by omega)
    · rw [hM, List.append_assoc,
        List.take_append_of_le_length (by rw [List.length_take]; omega),
        List.take_take, min_self]
    · rw [hM]
      rw [show (V.take 3 ++ List.replicate m '*' ++
            V.drop (V.length - 3)).length - 3 = 3 + m from by
        simp only [List.length_append, List.length_take,
          List.length_replicate, List.length_drop]
        omega]
      rw [List.drop_left' (by
        rw [List.length_append, List.length_take, List.length_replicate]
        omega)]

/-- On a replacement string without a dollar character the substitution
expansion of String.replace is the identity. -/
theorem expandDollar_no_dollar (matched pre post : List Char) :
    ∀ repl : List Char, (∀ c ∈ repl, c ≠ '$') →
      expandDollar matched pre post repl = repl := by
  intro repl
  induction repl with
  | nil => intro _; rfl
  | cons c rest ih =>
      intro h
      cases rest with
      | nil => rfl
      | cons d rest2 =>
          rw [expandDollar,
            if_neg (h c (List.mem_cons_self c (d :: rest2))),
            ih (fun e he => h e (List.mem_cons_of_mem c he))]

/-- Every character of maskSecret is a star or a character of the masked
value. -/
theorem maskSecret_mem (value : List Char) (showChars : Nat) (c : Char)
    (hc : c ∈ maskSecret value showChars) : c = '*' ∨ c ∈ value := by
  unfold maskSecret at hc
  by_cases h1 : value = []
  · rw [if_pos h1] at hc
    simp at hc
    exact Or.inl hc
  · rw [if_neg h1] at hc
    by_cases h2 : value.length ≤ showChars * 2 + 3
    · rw [if_pos h2] at hc
      exact Or.inl (List.eq_of_mem_replicate hc)
    · rw [if_neg h2] at hc
      rw [List.append_assoc, List.mem_append, List.mem_append] at hc
      rcases hc with h | h | h
      · exact Or.inr (List.mem_of_mem_take h)
      · exact Or.inl (List.eq_of_mem_replicate h)
      · unfold sliceLast at h
        by_cases h3 : showChars = 0
        · rw [if_pos h3] at h
          exact Or.inr h
        · rw [if_neg h3] at h
          exact Or.inr (List.mem_of_mem_drop h)

/-- When the secret contains no dollar character, neither does its mask, so
the substitution expansion leaves the mask unchanged. -/
theorem expand_mask_id (secretValue pre post : List Char)
    (hdollar : ∀ c ∈ secretValue, c ≠ '$') :
    expandDollar secretValue pre post (maskSecret secretValue) =
      maskSecret secretValue :=
  expandDollar_no_dollar secretValue pre post (maskSecret secretValue)
    (fun c hc => by
      rcases maskSecret_mem secretValue 3 c hc with h | h
      · rw [h]; decide
      · exact hdollar c h)

/-! ## Claim C3: maskLine -/

/-- C3 (amended): maskLine replaces the first occurrence of the secret
value (the part of the claim about the replaced shape, stated for the index
that indexOf finds), and when the secret value is nonempty, occurs exactly
once in the line, and contains no star, no dot and no dollar, the returned
string does not contain the secret value.  (As stated the claim fails: a
second occurrence of the secret survives the single replacement, see the
counterexample; and a dollar-ampersand at the kept front edge of the secret
makes the replacement-pattern expansion of String.replace re-insert the
matched secret, see maskLine_dollar_amp_leak.) -/
theorem claim_C3 (line secretValue : List Char) (maxLineLength : Nat)
    (hV : secretValue ≠ [])
    (hstar : ∀ c ∈ secretValue, c ≠ '*')
    (hdot : ∀ c ∈ secretValue, c ≠ '.')
    (hdollar : ∀ c ∈ secretValue, c ≠ '$')
    (huniq : occCount line secretValue = 1) :
    (∀ q, firstIndexOf line secretValue = some q →
      (∀ j, j < q → ¬ secretValue <+: line.drop j) ∧
      line = line.take q ++ secretValue ++ line.drop (q + secretValue.length) ∧
      replaceFirst line secretValue (maskSecret secretValue) =
        line.take q ++ maskSecret secretValue ++
          line.drop (q + secretValue.length)) ∧
    (line ≠ [] →
      ¬ (replaceFirst line secretValue (maskSecret secretValue)).length >
          maxLineLength →
      maskLine line secretValue maxLineLength =
        replaceFirst line secretValue (maskSecret secretValue)) ∧
    ¬ secretValue <:+: maskLine line secretValue maxLineLength := by
  obtain ⟨p, hp, hup⟩ := occCount_one line secretValue hV huniq
  refine ⟨?_, ?_, ?_⟩
  · intro q hq
    obtain ⟨h1, h2⟩ := firstIndexOf_some line secretValue q hq
    refine ⟨h2, occ_split line secretValue q h1, ?_⟩
    have h0 : replaceFirst line secretValue (maskSecret secretValue) =
        line.take q
          ++ expandDollar secretValue (line.take q)
              (line.drop (q + secretValue.length)) (maskSecret secretValue)
          ++ line.drop (q + secretValue.length) := by
      unfold replaceFirst
      rw [hq]
    rw [h0, expand_mask_id secretValue _ _ hdollar]
  · intro hline hshort
    unfold maskLine
    rw [if_neg (by
      intro hor
      cases hor with
      | inl h => exact hline h
      | inr h => exact hV h)]
    rw [if_neg hshort]
  · have hplen := prefix_drop_length secretValue line p hV hp
    have hVpos : 0 < secretValue.length := List.length_pos.mpr hV
    have hline : line ≠ [] := by
      intro e
      rw [e, List.length_nil] at hplen
      omega
    obtain ⟨q, hq⟩ := firstIndexOf_of_prefix line secretValue p hp
    obtain ⟨hq1, _⟩ := firstIndexOf_some line secretValue q hq
    have hqp : q = p := hup q hq1
    subst hqp
    have hML0 : replaceFirst line secretValue (maskSecret secretValue) =
        line.take q
          ++ expandDollar secretValue (line.take q)
              (line.drop (q + secretValue.length)) (maskSecret secretValue)
          ++ line.drop (q + secretValue.length) := by
      unfold replaceFirst
      rw [hq]
    have hML : replaceFirst line secretValue (maskSecret secretValue) =
        line.take q ++ maskSecret secretValue ++
          line.drop (q + secretValue.length) := by
      rw [hML0, expand_mask_id secretValue _ _ hdollar]
    have hnotML : ¬ secretValue <:+:
        replaceFirst line secretValue (maskSecret secretValue) := by
      rw [hML]
      exact not_infix_maskSecret line secretValue q hV hstar hq1 hup
    unfold maskLine
    rw [if_neg (by
      intro hor
      cases hor with
      | inl h => exact hline h
      | inr h => exact hV h)]
    by_cases hlong :
        (replaceFirst line secretValue (maskSecret secretValue)).length >
          maxLineLength
    · rw [if_pos hlong]
      cases hfi : firstIndexOf
          (replaceFirst line secretValue (maskSecret secretValue))
          (maskSecret secretValue) with
      | none =>
          have hglue := not_infix_dots secretValue
            (replaceFirst line secretValue (maskSecret secretValue))
            ((replaceFirst line secretValue (maskSecret secretValue)).take
              (jsSliceEnd
                (replaceFirst line secretValue (maskSecret secretValue)).length
                ((maxLineLength : Int) - 3)))
            [] ['.', '.', '.'] hV hdot (by intro c hc; simp at hc)
            (by intro c hc; simpa using hc)
            ((List.take_prefix _ _).isInfix) hnotML
          simpa using hglue
      | some secretPos =>
          have hglue := not_infix_dots secretValue
            (replaceFirst line secretValue (maskSecret secretValue))
            (((replaceFirst line secretValue (maskSecret secretValue)).drop
                (secretPos - 20)).take
              (min (replaceFirst line secretValue (maskSecret secretValue)).length
                  (secretPos + (maskSecret secretValue).length + 20) -
                (secretPos - 20)))
            (if 0 < secretPos - 20 then ['.', '.', '.'] else [])
            (if min (replaceFirst line secretValue (maskSecret secretValue)).length
                  (secretPos + (maskSecret secretValue).length + 20) <
                (replaceFirst line secretValue (maskSecret secretValue)).length
              then ['.', '.', '.'] else []) hV hdot
            (by
              intro c hc
              split at hc
              · simpa using hc
              · simp at hc)
            (by
              intro c hc
              split at hc
              · simpa using hc
              · simp at hc)
            (List.infix_iff_prefix_suffix.mpr
              ⟨(replaceFirst line secretValue (maskSecret secretValue)).drop
                  (secretPos - 20),
                List.take_prefix _ _, List.drop_suffix _ _⟩)
            hnotML
          exact hglue
    · rw [if_neg hlong]
      exact hnotML

/-- Witness for C3: the secret abcdefghij occurs exactly once in the line
k=abcdefghij and the masked line does not contain it. -/
theorem claim_C3_witness :
    ¬ ("abcdefghij".toList <:+:
        maskLine ("k=abcdefghij".toList) ("abcdefghij".toList) 100) :=
  (claim_C3 ("k=abcdefghij".toList) ("abcdefghij".toList) 100
    (by decide) (by decide) (by decide) (by decide) (by decide)).2.2

/-- Counterexample to C3 as stated: when the secret occurs twice in the
line, only the first occurrence is replaced and the returned string still
contains the unmasked secret. -/
theorem claim_C3_counterexample :
    "abcdefghij".toList <:+:
      maskLine ("abcdefghij abcdefghij".toList) ("abcdefghij".toList) 100 := by
  decide

/-- The dollar-ampersand substitution pattern makes the dollar hypothesis of
the amended C3 necessary: a secret whose kept front edge starts with a
dollar and an ampersand masks to a replacement beginning with those two
characters, which String.replace expands back to the matched secret, so
the masked line still contains the secret although it is nonempty, occurs
once, and has no star and no dot. -/
theorem maskLine_dollar_amp_leak :
    occCount ("k=$&abcdefghij".toList) ("$&abcdefghij".toList) = 1 ∧
    "$&abcdefghij".toList <:+:
      maskLine ("k=$&abcdefghij".toList) ("$&abcdefghij".toList) 100 := by
  constructor
  · decide
  · decide

/-! ## Key rendering lemmas: the dedup key determines line number and
value -/

theorem char_ofNat_digit_isDigit (d : Nat) (hd : d < 10) :
    (Char.ofNat (48 + d)).isDigit = true := by
  interval_cases d <;> decide

theorem char_ofNat_digit_inj (d e : Nat) (hd : d < 10) (he : e < 10)
    (h : Char.ofNat (48 + d) = Char.ofNat (48 + e)) : d = e := by
  interval_cases d <;> interval_cases e <;> first
    | rfl
    | (exfalso; revert h; decide)

theorem natDigitsAux_isDigit (fuel : Nat) :
    ∀ n, ∀ c ∈ natDigitsAux fuel n, c.isDigit = true := by
  induction fuel with
  | zero => intro n c hc; simp [natDigitsAux] at hc
  | succ f ih =>
      intro n c hc
      rw [natDigitsAux] at hc
      by_cases h : n < 10
      · rw [if_pos h] at hc
        simp only [List.mem_singleton] at hc
        subst hc
        exact char_ofNat_digit_isDigit n h
      · rw [if_neg h] at hc
        rw [List.mem_append] at hc
        cases hc with
        | inl h1 => exact ih _ c h1
        | inr h2 =>
            simp only [List.mem_singleton] at h2
            subst h2
            exact char_ofNat_digit_isDigit _ (Nat.mod_lt _ (by omega))

theorem natDigitsAux_ne_nil (fuel n : Nat) (hf : 0 < fuel) :
    natDigitsAux fuel n ≠ [] := by
  cases fuel with
  | zero => omega
  | succ f =>
      rw [natDigitsAux]
      by_cases h : n < 10
      · rw [if_pos h]; simp
      · rw [if_neg h]; simp

theorem natDigitsAux_inj (fuel : Nat) :
    ∀ fuel' m n, m < fuel → n < fuel' →
      natDigitsAux fuel m = natDigitsAux fuel' n → m = n := by
  induction fuel with
  | zero => intro fuel' m n hm; omega
  | succ f ih =>
      intro fuel' m n hm hn h
      cases fuel' with
      | zero => omega
      | succ f' =>
          rw [natDigitsAux, natDigitsAux] at h
          by_cases h1 : m < 10 <;> by_cases h2 : n < 10
          · rw [if_pos h1, if_pos h2] at h
            simp only [List.cons.injEq, and_true] at h
            exact char_ofNat_digit_inj m n h1 h2 h
          · rw [if_pos h1, if_neg h2] at h
            have := congrArg List.length h
            simp only [List.length_singleton, List.length_append,
              List.length_singleton] at this
            have hne := natDigitsAux_ne_nil f' (n / 10) (by omega)
            have : (natDigitsAux f' (n / 10)).length ≠ 0 := by
              intro e
              exact hne (List.length_eq_zero.mp e)
            omega
          · rw [if_neg h1, if_pos h2] at h
            have := congrArg List.length h
            simp only [List.length_singleton, List.length_append,
              List.length_singleton] at this
            have hne := natDigitsAux_ne_nil f (m / 10) (by omega)
            have : (natDigitsAux f (m / 10)).length ≠ 0 := by
              intro e
              exact hne (List.length_eq_zero.mp e)
            omega
          · rw [if_neg h1, if_neg h2] at h
            have hrev := congrArg List.reverse h
            simp only [List.reverse_append, List.reverse_singleton,
              List.singleton_append, List.cons.injEq] at hrev
            obtain ⟨hc, hres⟩ := hrev
            have hmod : m % 10 = n % 10 :=
              char_ofNat_digit_inj _ _ (Nat.mod_lt _ (by omega))
                (Nat.mod_lt _ (by omega)) hc
            have htails : natDigitsAux f (m / 10) = natDigitsAux f' (n / 10) := by
              have := congrArg List.reverse hres
              simpa using this
            have hdiv : m / 10 = n / 10 :=
              ih f' (m / 10) (n / 10)
                (by omega)
                (by omega)
                htails
            omega

theorem natDigits_inj (m n : Nat) (h : natDigits m = natDigits n) : m = n :=
  natDigitsAux_inj (m + 1) (n + 1) m n (by omega) (by omega) h

theorem natDigits_isDigit (n : Nat) : ∀ c ∈ natDigits n, c.isDigit = true :=
  natDigitsAux_isDigit (n + 1) n

theorem intToChars_no_colon (n : Int) : ':' ∉ intToChars n := by
  unfold intToChars
  by_cases h : n < 0
  · rw [if_pos h]
    intro hc
    rw [List.mem_cons] at hc
    cases hc with
    | inl h1 => exact absurd h1 (by decide)
    | inr h2 => exact absurd (natDigits_isDigit _ _ h2) (by decide)
  · rw [if_neg h]
    intro hc
    exact absurd (natDigits_isDigit _ _ hc) (by decide)

theorem intToChars_inj (m n : Int) (h : intToChars m = intToChars n) :
    m = n := by
  unfold intToChars at h
  by_cases h1 : m < 0 <;> by_cases h2 : n < 0
  · rw [if_pos h1, if_pos h2] at h
    simp only [List.cons.injEq, true_and] at h
    have := natDigits_inj _ _ h
    omega
  · rw [if_pos h1, if_neg h2] at h
    have hmem : '-' ∈ natDigits n.toNat := by
      rw [← h]
      exact List.mem_cons_self _ _
    exact absurd (natDigits_isDigit _ _ hmem) (by decide)
  · rw [if_neg h1, if_pos h2] at h
    have hmem : '-' ∈ natDigits m.toNat := by
      rw [h]
      exact List.mem_cons_self _ _
    exact absurd (natDigits_isDigit _ _ hmem) (by decide)
  · rw [if_neg h1, if_neg h2] at h
    have := natDigits_inj _ _ h
    omega

theorem append_colon_inj (a b v w : List Char)
    (ha : ':' ∉ a) (hb : ':' ∉ b)
    (h : a ++ ':' :: v = b ++ ':' :: w) : a = b ∧ v = w := by
  induction a generalizing b with
  | nil =>
      cases b with
      | nil =>
          simp only [List.nil_append, List.cons.injEq, true_and] at h
          exact ⟨rfl, h⟩
      | cons y bs =>
          simp only [List.nil_append, List.cons_append, List.cons.injEq] at h
          exact absurd (h.1 ▸ List.mem_cons_self y bs) hb
  | cons x as ih =>
      cases b with
      | nil =>
          simp only [List.cons_append, List.nil_append, List.cons.injEq] at h
          exact absurd (h.1 ▸ List.mem_cons_self x as) ha
      | cons y bs =>
          simp only [List.cons_append, List.cons.injEq] at h
          obtain ⟨hxy, htail⟩ := h
          have h3 := ih bs (fun hm => ha (List.mem_cons_of_mem _ hm))
            (fun hm => hb (List.mem_cons_of_mem _ hm)) htail
          exact ⟨by rw [hxy, h3.1], h3.2⟩

theorem mkKey_inj (fn : List Char) (n n' : Int) (v v' : List Char)
    (h : mkKey fn n v = mkKey fn n' v') : n = n' ∧ v = v' := by
  unfold mkKey at h
  rw [List.append_assoc, List.append_assoc] at h
  have h1 := List.append_cancel_left h
  simp only [List.cons_append, List.cons.injEq, true_and] at h1
  have h2 := append_colon_inj _ _ _ _ (intToChars_no_colon n)
    (intToChars_no_colon n') h1
  exact ⟨intToChars_inj _ _ h2.1, h2.2⟩

/-! ## Invariants of the scanLines folds -/

theorem foldP_seen_sub (fn : List Char) (al : AddedLine) :
    ∀ (ms : List (SecretPattern × List Char × Nat)) (seen : List (List Char)),
      ∀ k ∈ seen, k ∈ (foldPatternMatches fn al ms seen).2 := by
  intro ms
  induction ms with
  | nil => intro seen k hk; exact hk
  | cons m0 ms ih =>
      intro seen k hk
      obtain ⟨p0, v0, i0⟩ := m0
      rw [foldPatternMatches]
      by_cases hkey : mkKey fn al.lineNumber v0 ∈ seen
      · rw [if_pos hkey]
        exact ih seen k hk
      · rw [if_neg hkey]
        exact ih _ k (List.mem_cons_of_mem _ hk)

theorem foldP_seen_shape (fn : List Char) (al : AddedLine) :
    ∀ (ms : List (SecretPattern × List Char × Nat)) (seen : List (List Char)),
      ∀ k ∈ (foldPatternMatches fn al ms seen).2,
        k ∈ seen ∨ ∃ v, k = mkKey fn al.lineNumber v := by
  intro ms
  induction ms with
  | nil => intro seen k hk; exact Or.inl hk
  | cons m0 ms ih =>
      intro seen k hk
      obtain ⟨p0, v0, i0⟩ := m0
      rw [foldPatternMatches] at hk
      by_cases hkey : mkKey fn al.lineNumber v0 ∈ seen
      · rw [if_pos hkey] at hk
        exact ih seen k hk
      · rw [if_neg hkey] at hk
        rcases ih _ k hk with h | h
        · rcases List.mem_cons.mp h with h1 | h1
          · exact Or.inr ⟨v0, h1⟩
          · exact Or.inl h1
        · exact Or.inr h

theorem foldP_out (fn : List Char) (al : AddedLine) :
    ∀ (ms : List (SecretPattern × List Char × Nat)) (seen : List (List Char)),
      ∀ f ∈ (foldPatternMatches fn al ms seen).1,
        (∃ m ∈ ms, f = mkPatternFinding fn al m.1 m.2.1) ∧
        mkKey fn (f.line.getD 0) f.rawValue ∉ seen ∧
        mkKey fn (f.line.getD 0) f.rawValue ∈ (foldPatternMatches fn al ms seen).2 := by
  intro ms
  induction ms with
  | nil => intro seen f hf; simp [foldPatternMatches] at hf
  | cons m0 ms ih =>
      intro seen f hf
      obtain ⟨p0, v0, i0⟩ := m0
      rw [foldPatternMatches] at hf ⊢
      by_cases hkey : mkKey fn al.lineNumber v0 ∈ seen
      · rw [if_pos hkey] at hf ⊢
        obtain ⟨⟨m, hm, heq⟩, h2, h3⟩ := ih seen f hf
        exact ⟨⟨m, List.mem_cons_of_mem _ hm, heq⟩, h2, h3⟩
      · rw [if_neg hkey] at hf ⊢
        rcases List.mem_cons.mp hf with h1 | h1
        · subst h1
          refine ⟨⟨(p0, v0, i0), List.mem_cons_self _ _, rfl⟩, hkey, ?_⟩
          exact foldP_seen_sub fn al ms _ _ (List.mem_cons_self _ _)
        · obtain ⟨horig, hnot, hin⟩ := ih _ f h1
          exact ⟨⟨horig.choose, List.mem_cons_of_mem _ horig.choose_spec.1,
              horig.choose_spec.2⟩,
            fun hk => hnot (List.mem_cons_of_mem _ hk), hin⟩

theorem foldP_pairwise (fn : List Char) (al : AddedLine) :
    ∀ (ms : List (SecretPattern × List Char × Nat)) (seen : List (List Char)),
      (foldPatternMatches fn al ms seen).1.Pairwise
        (fun f g => mkKey fn (f.line.getD 0) f.rawValue ≠
          mkKey fn (g.line.getD 0) g.rawValue) := by
  intro ms
  induction ms with
  | nil => intro seen; simp [foldPatternMatches]
  | cons m0 ms ih =>
      intro seen
      obtain ⟨p0, v0, i0⟩ := m0
      rw [foldPatternMatches]
      by_cases hkey : mkKey fn al.lineNumber v0 ∈ seen
      · rw [if_pos hkey]
        exact ih seen
      · rw [if_neg hkey]
        refine List.Pairwise.cons ?_ (ih _)
        intro g hg
        obtain ⟨_, hnot, _⟩ := foldP_out fn al ms _ g hg
        intro heq
        exact hnot (heq ▸ List.mem_cons_self _ _)

theorem foldP_complete (fn : List Char) (al : AddedLine) :
    ∀ (ms : List (SecretPattern × List Char × Nat)) (seen : List (List Char))
      (m : SecretPattern × List Char × Nat),
      m ∈ ms →
      mkKey fn al.lineNumber m.2.1 ∉ seen →
      ∃ f ∈ (foldPatternMatches fn al ms seen).1,
        ∃ m' ∈ ms, f = mkPatternFinding fn al m'.1 m'.2.1 ∧ m'.2.1 = m.2.1 := by
  intro ms
  induction ms with
  | nil => intro seen m hm; simp at hm
  | cons m0 ms ih =>
      intro seen m hm hfresh
      obtain ⟨p0, v0, i0⟩ := m0
      rw [foldPatternMatches]
      by_cases hkey : mkKey fn al.lineNumber v0 ∈ seen
      · rw [if_pos hkey]
        have hm' : m ∈ ms := by
          rcases List.mem_cons.mp hm with h1 | h1
          · exfalso
            apply hfresh
            rw [h1]
            exact hkey
          · exact h1
        obtain ⟨f, hf, m', hm'', heq, hval⟩ := ih seen m hm' hfresh
        exact ⟨f, hf, m', List.mem_cons_of_mem _ hm'', heq, hval⟩
      · rw [if_neg hkey]
        by_cases hv : v0 = m.2.1
        · refine ⟨mkPatternFinding fn al p0 v0, List.mem_cons_self _ _,
            (p0, v0, i0), List.mem_cons_self _ _, rfl, hv⟩
        · have hm' : m ∈ ms := by
            rcases List.mem_cons.mp hm with h1 | h1
            · exfalso
              apply hv
              rw [h1]
            · exact h1
          have hfresh' : mkKey fn al.lineNumber m.2.1 ∉
              mkKey fn al.lineNumber v0 :: seen := by
            intro hk
            rcases List.mem_cons.mp hk with h1 | h1
            · exact hv ((mkKey_inj fn _ _ _ _ h1).2).symm
            · exact hfresh h1
          obtain ⟨f, hf, m', hm'', heq, hval⟩ := ih _ m hm' hfresh'
          exact ⟨f, List.mem_cons_of_mem _ hf, m',
            List.mem_cons_of_mem _ hm'', heq, hval⟩

theorem foldE_seen_sub (fn : List Char) (al : AddedLine)
    (allow : List (List Char → Bool)) :
    ∀ (ms : List (List Char × ℝ)) (seen : List (List Char)),
      ∀ k ∈ seen, k ∈ (foldEntropyMatches fn al allow ms seen).2 := by
  intro ms
  induction ms with
  | nil => intro seen k hk; exact hk
  | cons m0 ms ih =>
      intro seen k hk
      obtain ⟨v0, e0⟩ := m0
      rw [foldEntropyMatches]
      by_cases hkey : mkKey fn al.lineNumber v0 ∈ seen
      · rw [if_pos hkey]
        exact ih seen k hk
      · rw [if_neg hkey]
        by_cases hal : isAllowlisted v0 allow
        · rw [if_pos hal]
          exact ih seen k hk
        · rw [if_neg hal]
          exact ih _ k (List.mem_cons_of_mem _ hk)

theorem foldE_seen_shape (fn : List Char) (al : AddedLine)
    (allow : List (List Char → Bool)) :
    ∀ (ms : List (List Char × ℝ)) (seen : List (List Char)),
      ∀ k ∈ (foldEntropyMatches fn al allow ms seen).2,
        k ∈ seen ∨ ∃ v, k = mkKey fn al.lineNumber v := by
  intro ms
  induction ms with
  | nil => intro seen k hk; exact Or.inl hk
  | cons m0 ms ih =>
      intro seen k hk
      obtain ⟨v0, e0⟩ := m0
      rw [foldEntropyMatches] at hk
      by_cases hkey : mkKey fn al.lineNumber v0 ∈ seen
      · rw [if_pos hkey] at hk
        exact ih seen k hk
      · rw [if_neg hkey] at hk
        by_cases hal : isAllowlisted v0 allow
        · rw [if_pos hal] at hk
          exact ih seen k hk
        · rw [if_neg hal] at hk
          rcases ih _ k hk with h | h
          · rcases List.mem_cons.mp h with h1 | h1
            · exact Or.inr ⟨v0, h1⟩
            · exact Or.inl h1
          · exact Or.inr h

theorem foldE_out (fn : List Char) (al : AddedLine)
    (allow : List (List Char → Bool)) :
    ∀ (ms : List (List Char × ℝ)) (seen : List (List Char)),
      ∀ f ∈ (foldEntropyMatches fn al allow ms seen).1,
        (∃ ve ∈ ms, isAllowlisted ve.1 allow = false ∧
          f = mkEntropyFinding fn al ve.1 ve.2) ∧
        mkKey fn (f.line.getD 0) f.rawValue ∉ seen ∧
        mkKey fn (f.line.getD 0) f.rawValue ∈
          (foldEntropyMatches fn al allow ms seen).2 := by
  intro ms
  induction ms with
  | nil => intro seen f hf; simp [foldEntropyMatches] at hf
  | cons m0 ms ih =>
      intro seen f hf
      obtain ⟨v0, e0⟩ := m0
      rw [foldEntropyMatches] at hf ⊢
      by_cases hkey : mkKey fn al.lineNumber v0 ∈ seen
      · rw [if_pos hkey] at hf ⊢
        obtain ⟨⟨ve, hve, hveal, hveeq⟩, h2, h3⟩ := ih seen f hf
        exact ⟨⟨ve, List.mem_cons_of_mem _ hve, hveal, hveeq⟩, h2, h3⟩
      · rw [if_neg hkey] at hf ⊢
        by_cases hal : isAllowlisted v0 allow
        · rw [if_pos hal] at hf ⊢
          obtain ⟨⟨ve, hve, hveal, hveeq⟩, h2, h3⟩ := ih seen f hf
          exact ⟨⟨ve, List.mem_cons_of_mem _ hve, hveal, hveeq⟩, h2, h3⟩
        · rw [if_neg hal] at hf ⊢
          rcases List.mem_cons.mp hf with h1 | h1
          · subst h1
            refine ⟨⟨(v0, e0), List.mem_cons_self _ _,
                Bool.eq_false_iff.mpr hal, rfl⟩, hkey, ?_⟩
            exact foldE_seen_sub fn al allow ms _ _ (List.mem_cons_self _ _)
          · obtain ⟨horig, hnot, hin⟩ := ih _ f h1
            obtain ⟨ve, hve, hveal, hveeq⟩ := horig
            exact ⟨⟨ve, List.mem_cons_of_mem _ hve, hveal, hveeq⟩,
              fun hk => hnot (List.mem_cons_of_mem _ hk), hin⟩

theorem foldE_pairwise (fn : List Char) (al : AddedLine)
    (allow : List (List Char → Bool)) :
    ∀ (ms : List (List Char × ℝ)) (seen : List (List Char)),
      (foldEntropyMatches fn al allow ms seen).1.Pairwise
        (fun f g => mkKey fn (f.line.getD 0) f.rawValue ≠
          mkKey fn (g.line.getD 0) g.rawValue) := by
  intro ms
  induction ms with
  | nil => intro seen; simp [foldEntropyMatches]
  | cons m0 ms ih =>
      intro seen
      obtain ⟨v0, e0⟩ := m0
      rw [foldEntropyMatches]
      by_cases hkey : mkKey fn al.lineNumber v0 ∈ seen
      · rw [if_pos hkey]
        exact ih seen
      · rw [if_neg hkey]
        by_cases hal : isAllowlisted v0 allow
        · rw [if_pos hal]
          exact ih seen
        · rw [if_neg hal]
          refine List.Pairwise.cons ?_ (ih _)
          intro g hg
          obtain ⟨_, hnot, _⟩ := foldE_out fn al allow ms _ g hg
          intro heq
          exact hnot (heq ▸ List.mem_cons_self _ _)

theorem scanGo_out (fn : List Char) (cfg : Config)
    (pats : List SecretPattern) :
    ∀ (lines : List AddedLine) (seen : List (List Char)),
      ∀ f ∈ scanLinesGo fn cfg pats lines seen,
        (∃ al ∈ lines,
          (∃ m ∈ scanWithPatterns al.line pats cfg.allowlist,
            f = mkPatternFinding fn al m.1 m.2.1) ∨
          (cfg.entropy.enabled = true ∧
           ∃ ve ∈ detectHighEntropyStrings al.line cfg.entropy,
             isAllowlisted ve.1 cfg.allowlist = false ∧
             f = mkEntropyFinding fn al ve.1 ve.2)) ∧
        mkKey fn (f.line.getD 0) f.rawValue ∉ seen := by
  intro lines
  induction lines with
  | nil => intro seen f hf; simp [scanLinesGo] at hf
  | cons al0 rest ih =>
      intro seen f hf
      rw [scanLinesGo] at hf
      simp only [List.mem_append] at hf
      by_cases hen : cfg.entropy.enabled = true
      · rw [if_pos hen] at hf
        rcases hf with (hf | hf) | hf
        · obtain ⟨⟨m, hm, heq⟩, hfresh, _⟩ :=
            foldP_out fn al0 _ seen f hf
          exact ⟨⟨al0, List.mem_cons_self _ _, Or.inl ⟨m, hm, heq⟩⟩, hfresh⟩
        · obtain ⟨⟨ve, hve, hveal, hveeq⟩, hfresh, _⟩ :=
            foldE_out fn al0 cfg.allowlist _ _ f hf
          refine ⟨⟨al0, List.mem_cons_self _ _,
            Or.inr ⟨hen, ve, hve, hveal, hveeq⟩⟩, ?_⟩
          intro hk
          exact hfresh (foldP_seen_sub fn al0 _ seen _ hk)
        · obtain ⟨⟨al, hal, horig⟩, hfresh⟩ := ih _ f hf
          refine ⟨⟨al, List.mem_cons_of_mem _ hal, horig⟩, ?_⟩
          intro hk
          exact hfresh (foldE_seen_sub fn al0 cfg.allowlist _ _ _
            (foldP_seen_sub fn al0 _ seen _ hk))
      · rw [if_neg hen] at hf
        rcases hf with (hf | hf) | hf
        · obtain ⟨⟨m, hm, heq⟩, hfresh, _⟩ :=
            foldP_out fn al0 _ seen f hf
          exact ⟨⟨al0, List.mem_cons_self _ _, Or.inl ⟨m, hm, heq⟩⟩, hfresh⟩
        · simp at hf
        · obtain ⟨⟨al, hal, horig⟩, hfresh⟩ := ih _ f hf
          refine ⟨⟨al, List.mem_cons_of_mem _ hal, horig⟩, ?_⟩
          intro hk
          exact hfresh (foldP_seen_sub fn al0 _ seen _ hk)

theorem scanGo_pairwise (fn : List Char) (cfg : Config)
    (pats : List SecretPattern) :
    ∀ (lines : List AddedLine) (seen : List (List Char)),
      (scanLinesGo fn cfg pats lines seen).Pairwise
        (fun f g => mkKey fn (f.line.getD 0) f.rawValue ≠
          mkKey fn (g.line.getD 0) g.rawValue) := by
  intro lines
  induction lines with
  | nil => intro seen; simp [scanLinesGo]
  | cons al0 rest ih =>
      intro seen
      rw [scanLinesGo]
      rw [List.pairwise_append, List.pairwise_append]
      by_cases hen : cfg.entropy.enabled = true
      · rw [if_pos hen]
        refine ⟨⟨foldP_pairwise fn al0 _ seen, foldE_pairwise fn al0 _ _ _, ?_⟩,
          ih _, ?_⟩
        · intro a ha b hb
          obtain ⟨_, _, hain⟩ := foldP_out fn al0 _ seen a ha
          obtain ⟨_, hbfresh, _⟩ := foldE_out fn al0 cfg.allowlist _ _ b hb
          intro heq
          exact hbfresh (heq ▸ hain)
        · intro a ha b hb
          rw [List.mem_append] at ha
          obtain ⟨_, hbfresh⟩ := scanGo_out fn cfg pats rest _ b hb
          have hain : mkKey fn (a.line.getD 0) a.rawValue ∈
              (foldEntropyMatches fn al0 cfg.allowlist
                (detectHighEntropyStrings al0.line cfg.entropy)
                (foldPatternMatches fn al0
                  (scanWithPatterns al0.line pats cfg.allowlist) seen).2).2 := by
            rcases ha with ha | ha
            · obtain ⟨_, _, hain⟩ := foldP_out fn al0 _ seen a ha
              exact foldE_seen_sub fn al0 cfg.allowlist _ _ _ hain
            · obtain ⟨_, _, hain⟩ := foldE_out fn al0 cfg.allowlist _ _ a ha
              exact hain
          intro heq
          exact hbfresh (heq ▸ hain)
      · rw [if_neg hen]
        refine ⟨⟨foldP_pairwise fn al0 _ seen, by simp, by simp⟩, ih _, ?_⟩
        intro a ha b hb
        rw [List.mem_append] at ha
        obtain ⟨_, hbfresh⟩ := scanGo_out fn cfg pats rest _ b hb
        have hain : mkKey fn (a.line.getD 0) a.rawValue ∈
            (foldPatternMatches fn al0
              (scanWithPatterns al0.line pats cfg.allowlist) seen).2 := by
          rcases ha with ha | ha
          · obtain ⟨_, _, hain⟩ := foldP_out fn al0 _ seen a ha
            exact hain
          · simp at ha
        intro heq
        exact hbfresh (heq ▸ hain)

theorem scanGo_complete (fn : List Char) (cfg : Config)
    (pats : List SecretPattern) :
    ∀ (lines : List AddedLine) (seen : List (List Char)) (al : AddedLine)
      (m : SecretPattern × List Char × Nat),
      lines.Pairwise (fun a b => a.lineNumber ≠ b.lineNumber) →
      al ∈ lines →
      m ∈ scanWithPatterns al.line pats cfg.allowlist →
      mkKey fn al.lineNumber m.2.1 ∉ seen →
      ∃ f ∈ scanLinesGo fn cfg pats lines seen,
        ∃ m' ∈ scanWithPatterns al.line pats cfg.allowlist,
          f = mkPatternFinding fn al m'.1 m'.2.1 ∧ m'.2.1 = m.2.1 := by
  intro lines
  induction lines with
  | nil => intro seen al m _ hal; simp at hal
  | cons al0 rest ih =>
      intro seen al m hdist hal hm hfresh
      rw [scanLinesGo]
      rcases List.mem_cons.mp hal with h1 | h1
      · subst h1
        obtain ⟨f, hf, m', hm', heq, hval⟩ :=
          foldP_complete fn al _ seen m hm hfresh
        refine ⟨f, ?_, m', hm', heq, hval⟩
        simp only [List.mem_append]
        exact Or.inl (Or.inl hf)
      · have hne : al0.lineNumber ≠ al.lineNumber :=
          (List.pairwise_cons.mp hdist).1 al h1
        have hnotkey : ∀ v, mkKey fn al.lineNumber m.2.1 ≠
            mkKey fn al0.lineNumber v := by
          intro v heq
          exact hne ((mkKey_inj fn _ _ _ _ heq).1).symm
        by_cases hen : cfg.entropy.enabled = true
        · rw [if_pos hen]
          have hfresh2 : mkKey fn al.lineNumber m.2.1 ∉
              (foldEntropyMatches fn al0 cfg.allowlist
                (detectHighEntropyStrings al0.line cfg.entropy)
                (foldPatternMatches fn al0
                  (scanWithPatterns al0.line pats cfg.allowlist) seen).2).2 := by
            intro hk
            rcases foldE_seen_shape fn al0 cfg.allowlist _ _ _ hk with hk2 | hk2
            · rcases foldP_seen_shape fn al0 _ seen _ hk2 with hk3 | hk3
              · exact hfresh hk3
              · obtain ⟨v, hv⟩ := hk3
                exact hnotkey v hv
            · obtain ⟨v, hv⟩ := hk2
              exact hnotkey v hv
          obtain ⟨f, hf, hrest⟩ :=
            ih _ al m (List.pairwise_cons.mp hdist).2 h1 hm hfresh2
          refine ⟨f, ?_, hrest⟩
          simp only [List.mem_append]
          exact Or.inr hf
        · rw [if_neg hen]
          have hfresh2 : mkKey fn al.lineNumber m.2.1 ∉
              (foldPatternMatches fn al0
                (scanWithPatterns al0.line pats cfg.allowlist) seen).2 := by
            intro hk
            rcases foldP_seen_shape fn al0 _ seen _ hk with hk2 | hk2
            · exact hfresh hk2
            · obtain ⟨v, hv⟩ := hk2
              exact hnotkey v hv
          obtain ⟨f, hf, hrest⟩ :=
            ih _ al m (List.pairwise_cons.mp hdist).2 h1 hm hfresh2
          refine ⟨f, ?_, hrest⟩
          simp only [List.mem_append]
          exact Or.inr hf

theorem scanWithPatterns_mem (text : List Char) (pats : List SecretPattern)
    (allow : List (List Char → Bool)) :
    ∀ m ∈ scanWithPatterns text pats allow,
      m.1 ∈ pats ∧ isAllowlisted m.2.1 allow = false ∧
      ∃ rm ∈ m.1.matcher text, m.2.1 = matchValue rm := by
  intro m hm
  unfold scanWithPatterns at hm
  rw [List.mem_flatMap] at hm
  obtain ⟨p, hp, hm2⟩ := hm
  rw [List.mem_filterMap] at hm2
  obtain ⟨rm, hrm, heq⟩ := hm2
  by_cases hal : isAllowlisted (matchValue rm) allow
  · rw [if_pos hal] at heq
    simp at heq
  · rw [if_neg hal] at heq
    simp only [Option.some.injEq] at heq
    subst heq
    exact ⟨hp, Bool.eq_false_iff.mpr hal, rm, hrm, rfl⟩

theorem detect_mem (text : List Char) (cfg : EntropyConfig) :
    ∀ ve ∈ detectHighEntropyStrings text cfg,
      ve.1 ∈ allTokenMatches text ∧ ve.2 = calculateEntropy ve.1 ∧
      cfg.threshold ≤ ve.2 := by
  intro ve hve
  unfold detectHighEntropyStrings at hve
  by_cases hen : (!cfg.enabled) = true
  · rw [if_pos hen] at hve
    simp at hve
  · rw [if_neg hen] at hve
    rw [List.mem_filterMap] at hve
    obtain ⟨cand, hcand, heq⟩ := hve
    by_cases h1 : cand.length < cfg.minLength
    · rw [if_pos h1] at heq
      simp at heq
    · rw [if_neg h1] at heq
      by_cases h2 : isLikelyNonSecret cand = true
      · rw [if_pos h2] at heq
        simp at heq
      · rw [if_neg h2] at heq
        by_cases h3 : (cfg.ignoreBase64Like && isBase64Like cand) = true
        · rw [if_pos h3] at heq
          simp at heq
        · rw [if_neg h3] at heq
          have heq2 : (if cfg.threshold ≤ calculateEntropy cand then
              some (cand, calculateEntropy cand) else none) = some ve := heq
          by_cases h4 : cfg.threshold ≤ calculateEntropy cand
          · rw [if_pos h4] at heq2
            simp only [Option.some.injEq] at heq2
            subst heq2
            exact ⟨hcand, rfl, h4⟩
          · rw [if_neg h4] at heq2
            simp at heq2

theorem token_infix (text : List Char) :
    ∀ v ∈ allTokenMatches text, v <:+: text := by
  intro v hv
  unfold allTokenMatches at hv
  rw [List.mem_map] at hv
  obtain ⟨⟨i, j⟩, _, heq⟩ := hv
  subst heq
  exact List.infix_iff_prefix_suffix.mpr
    ⟨text.drop i, List.take_prefix _ _, List.drop_suffix _ _⟩

/-! ## Claim C10: finding fields point back into the scanned input -/

/-- C10: every finding of scanLines carries the scanned filename, the line
number of one of the added lines, and a raw value that is a contiguous
substring of that line's text.  The hypothesis states that each rule's
matcher behaves like a regex: its matched values are substrings of the
text. -/
theorem claim_C10 (filename : List Char) (addedLines : List AddedLine)
    (config : Config) (patterns : List SecretPattern)
    (hmatch : ∀ p ∈ patterns, ∀ text : List Char, ∀ m ∈ p.matcher text,
      matchValue m <:+: text) :
    ∀ f ∈ scanLines filename addedLines config patterns,
      f.file = filename ∧
      ∃ al ∈ addedLines, f.line = some al.lineNumber ∧
        f.rawValue <:+: al.line := by
  intro f hf
  obtain ⟨⟨al, hal, horig⟩, _⟩ :=
    scanGo_out filename config patterns addedLines [] f hf
  rcases horig with ⟨m, hm, heq⟩ | ⟨_, ve, hve, _, heq⟩
  · obtain ⟨hp, _, rm, hrm, hval⟩ := scanWithPatterns_mem _ _ _ m hm
    subst heq
    refine ⟨rfl, al, hal, rfl, ?_⟩
    show m.2.1 <:+: al.line
    rw [hval]
    exact hmatch m.1 hp al.line rm hrm
  · obtain ⟨htok, _, _⟩ := detect_mem _ _ ve hve
    subst heq
    exact ⟨rfl, al, hal, rfl, token_infix al.line ve.1 htok⟩

/-! ## Claim C1: deduplication and rule precedence -/

/-- C1 (amended): when the added lines carry pairwise-distinct line
numbers, no two findings of one scan share both line number and raw value,
and a value matched by a rule on a line yields exactly one finding for that
line and value: a pattern finding with high confidence carrying some
matching rule's name and severity.  (With a duplicated line number the
rule-over-entropy precedence fails, see the counterexample.) -/
theorem claim_C1 (filename : List Char) (addedLines : List AddedLine)
    (config : Config) (patterns : List SecretPattern)
    (hdist : addedLines.Pairwise (fun a b => a.lineNumber ≠ b.lineNumber)) :
    ((scanLines filename addedLines config patterns).Pairwise
      (fun f g => ¬ (f.line = g.line ∧ f.rawValue = g.rawValue))) ∧
    ∀ al ∈ addedLines,
      ∀ m ∈ scanWithPatterns al.line patterns config.allowlist,
        ∃ f ∈ scanLines filename addedLines config patterns,
          f.line = some al.lineNumber ∧ f.rawValue = m.2.1 ∧
          f.confidence = .high ∧
          (∃ p ∈ patterns, f.type = p.name ∧ f.severity = p.severity) ∧
          ∀ g ∈ scanLines filename addedLines config patterns,
            g.line = some al.lineNumber → g.rawValue = m.2.1 → g = f := by
  have hsymm : Symmetric (fun f g : Finding =>
      mkKey filename (f.line.getD 0) f.rawValue ≠
        mkKey filename (g.line.getD 0) g.rawValue) :=
    fun x y h heq => h heq.symm
  constructor
  · refine (scanGo_pairwise filename config patterns addedLines []).imp ?_
    intro f g hne heq
    exact hne (by rw [heq.1, heq.2])
  · intro al hal m hm
    obtain ⟨f, hf, m', hm', heq, hval⟩ :=
      scanGo_complete filename config patterns addedLines [] al m hdist hal hm
        (by simp)
    have hfl : f.line = some al.lineNumber := by rw [heq]; rfl
    have hfr : f.rawValue = m.2.1 := by
      rw [heq]
      exact hval
    obtain ⟨hp', _, _⟩ := scanWithPatterns_mem _ _ _ m' hm'
    refine ⟨f, hf, hfl, hfr, by rw [heq]; rfl,
      ⟨m'.1, hp', by rw [heq]; rfl, by rw [heq]; rfl⟩, ?_⟩
    intro g hg hgl hgr
    by_contra hne
    have hpw := scanGo_pairwise filename config patterns addedLines []
    have hRk := hpw.forall hsymm hg hf hne
    apply hRk
    rw [hgl, hgr, hfl, hfr]

/-! ## Claim C2: severity and confidence assignment -/

/-- C2 (amended): in a scan whose rules are not named High Entropy String,
every entropy finding records a candidate whose entropy reached the
configured threshold, with severity high from entropy 5.0, medium from
4.5, and low below 4.5 — where the confidence is high from 5.0 and medium
otherwise, including below 4.5 (the claim said low confidence there, but
the code assigns medium, see the counterexample); and every pattern
finding has high confidence with its rule's name and severity. -/
theorem claim_C2 (filename : List Char) (addedLines : List AddedLine)
    (config : Config) (patterns : List SecretPattern)
    (hname : ∀ p ∈ patterns, p.name ≠ "High Entropy String") :
    ∀ f ∈ scanLines filename addedLines config patterns,
      (f.type = "High Entropy String" →
        config.entropy.threshold ≤ calculateEntropy f.rawValue ∧
        ((5 : ℝ) ≤ calculateEntropy f.rawValue →
          f.severity = .high ∧ f.confidence = .high) ∧
        ((4.5 : ℝ) ≤ calculateEntropy f.rawValue ∧
            calculateEntropy f.rawValue < (5 : ℝ) →
          f.severity = .medium ∧ f.confidence = .medium) ∧
        (calculateEntropy f.rawValue < (4.5 : ℝ) →
          f.severity = .low ∧ f.confidence = .medium)) ∧
      (f.type ≠ "High Entropy String" →
        f.confidence = .high ∧
        ∃ p ∈ patterns, f.type = p.name ∧ f.severity = p.severity) := by
  intro f hf
  obtain ⟨⟨al, hal, horig⟩, _⟩ :=
    scanGo_out filename config patterns addedLines [] f hf
  rcases horig with ⟨m, hm, heq⟩ | ⟨_, ve, hve, _, heq⟩
  · obtain ⟨hp, _, _⟩ := scanWithPatterns_mem _ _ _ m hm
    subst heq
    constructor
    · intro htype
      exact absurd htype (hname m.1 hp)
    · intro _
      exact ⟨rfl, m.1, hp, rfl, rfl⟩
  · obtain ⟨_, hent, hth⟩ := detect_mem _ _ ve hve
    subst heq
    have hraw : (mkEntropyFinding filename al ve.1 ve.2).rawValue = ve.1 := rfl
    have h50 : (5.0 : ℝ) = (5 : ℝ) := by norm_num
    have h45 : (4.5 : ℝ) = (4.5 : ℝ) := rfl
    constructor
    · intro _
      rw [hraw, ← hent]
      refine ⟨hth, ?_, ?_, ?_⟩
      · intro h5
        have hc : ve.2 ≥ 5.0 := by rw [ge_iff_le, h50]; exact h5
        constructor
        · show (if ve.2 ≥ 5.0 then Severity.high
              else if ve.2 ≥ 4.5 then Severity.medium else Severity.low) =
            Severity.high
          rw [if_pos hc]
        · show (if ve.2 ≥ 5.0 then Severity.high else Severity.medium) =
            Severity.high
          rw [if_pos hc]
      · rintro ⟨h45le, h5lt⟩
        have hc5 : ¬ ve.2 ≥ 5.0 := by rw [ge_iff_le, h50]; exact not_le.mpr h5lt
        have hc45 : ve.2 ≥ 4.5 := by rw [ge_iff_le]; exact h45le
        constructor
        · show (if ve.2 ≥ 5.0 then Severity.high
              else if ve.2 ≥ 4.5 then Severity.medium else Severity.low) =
            Severity.medium
          rw [if_neg hc5, if_pos hc45]
        · show (if ve.2 ≥ 5.0 then Severity.high else Severity.medium) =
            Severity.medium
          rw [if_neg hc5]
      · intro hlt
        have hc45 : ¬ ve.2 ≥ 4.5 := by rw [ge_iff_le]; exact not_le.mpr hlt
        have hc5 : ¬ ve.2 ≥ 5.0 := by
          rw [ge_iff_le, h50]
          intro hle
          exact hc45 (by rw [ge_iff_le]; linarith)
        constructor
        · show (if ve.2 ≥ 5.0 then Severity.high
              else if ve.2 ≥ 4.5 then Severity.medium else Severity.low) =
            Severity.low
          rw [if_neg hc5, if_neg hc45]
        · show (if ve.2 ≥ 5.0 then Severity.high else Severity.medium) =
            Severity.medium
          rw [if_neg hc5]
    · intro htype
      exact absurd rfl htype

/-! ## Entropy of a string of distinct characters, and numeric bounds -/

theorem calculateEntropy_nodup (s : List Char) (hnd : s.Nodup) (hne : s ≠ []) :
    calculateEntropy s = Real.logb 2 s.length := by
  have hlen : s.length ≠ 0 := fun e => hne (List.length_eq_zero.mp e)
  have hlpos : (0 : ℝ) < (s.length : ℝ) :=
    Nat.cast_pos.mpr (Nat.pos_of_ne_zero hlen)
  rw [calculateEntropy_eq_neg_sum s hlen, List.dedup_eq_self.mpr hnd]
  have hmap : ∀ x ∈ s.map (fun c =>
      ((s.count c : ℝ) / (s.length : ℝ))
        * Real.logb 2 ((s.count c : ℝ) / (s.length : ℝ))),
      x = (1 / (s.length : ℝ)) * Real.logb 2 (1 / (s.length : ℝ)) := by
    intro x hx
    rw [List.mem_map] at hx
    obtain ⟨c, hc, rfl⟩ := hx
    rw [List.count_eq_one_of_mem hnd hc]
    norm_num
  rw [List.sum_eq_card_nsmul _ _ hmap, List.length_map, nsmul_eq_mul,
    one_div, Real.logb_inv]
  have hinv : (s.length : ℝ) * (s.length : ℝ)⁻¹ = 1 :=
    mul_inv_cancel₀ (ne_of_gt hlpos)
  calc -((s.length : ℝ) * ((s.length : ℝ)⁻¹ * -Real.logb 2 (s.length : ℝ)))
      = ((s.length : ℝ) * (s.length : ℝ)⁻¹) * Real.logb 2 (s.length : ℝ) := by
        ring
    _ = Real.logb 2 (s.length : ℝ) := by rw [hinv, one_mul]

theorem three_le_logb2_twenty : (3 : ℝ) ≤ Real.logb 2 20 := by
  have h8 : Real.logb 2 ((2 : ℝ) ^ (3 : ℕ)) = 3 := by
    rw [Real.logb_pow, Real.logb_self_eq_one (by norm_num)]
    norm_num
  calc (3 : ℝ) = Real.logb 2 ((2 : ℝ) ^ (3 : ℕ)) := h8.symm
    _ ≤ Real.logb 2 20 :=
        Real.logb_le_logb_of_le (by norm_num) (by positivity) (by norm_num)

theorem logb2_twenty_lt_five : Real.logb 2 20 < 5 := by
  have h32 : Real.logb 2 ((2 : ℝ) ^ (5 : ℕ)) = 5 := by
    rw [Real.logb_pow, Real.logb_self_eq_one (by norm_num)]
    norm_num
  have hlt : Real.logb 2 20 < Real.logb 2 ((2 : ℝ) ^ (5 : ℕ)) :=
    Real.logb_lt_logb (by norm_num) (by norm_num) (by norm_num)
  linarith

theorem logb2_twenty_lt_fourhalf : Real.logb 2 20 < 4.5 := by
  have h9 : Real.logb 2 ((2 : ℝ) ^ (9 : ℕ)) = 9 := by
    rw [Real.logb_pow, Real.logb_self_eq_one (by norm_num)]
    norm_num
  have h400 : Real.logb 2 ((20 : ℝ) ^ (2 : ℕ)) = 2 * Real.logb 2 20 := by
    rw [Real.logb_pow]
    norm_num
  have hlt : Real.logb 2 ((20 : ℝ) ^ (2 : ℕ)) <
      Real.logb 2 ((2 : ℝ) ^ (9 : ℕ)) :=
    Real.logb_lt_logb (by norm_num) (by positivity) (by norm_num)
  have h45 : (4.5 : ℝ) = 9 / 2 := by norm_num
  linarith

theorem cexToken_entropy : calculateEntropy cexToken = Real.logb 2 20 := by
  have h := calculateEntropy_nodup cexToken (by decide) (by decide)
  rw [h, show cexToken.length = 20 from rfl]
  norm_num

/-! ## Concrete evaluation of the shared scenario -/

theorem detect_singleton (text : List Char) (cfg : EntropyConfig)
    (v : List Char)
    (henb : (!cfg.enabled) = false)
    (htok : allTokenMatches text = [v])
    (hlen : ¬ v.length < cfg.minLength)
    (hns : ¬ isLikelyNonSecret v = true)
    (hb64 : ¬ (cfg.ignoreBase64Like && isBase64Like v) = true)
    (hth : cfg.threshold ≤ calculateEntropy v) :
    detectHighEntropyStrings text cfg = [(v, calculateEntropy v)] := by
  unfold detectHighEntropyStrings
  rw [if_neg (by rw [henb]; exact Bool.false_ne_true), htok]
  have hFv : (if v.length < cfg.minLength then (none : Option (List Char × ℝ))
      else if isLikelyNonSecret v = true then none
      else if (cfg.ignoreBase64Like && isBase64Like v) = true then none
      else
        let entropy := calculateEntropy v
        if entropy ≥ cfg.threshold then some (v, entropy) else none)
      = some (v, calculateEntropy v) := by
    rw [if_neg hlen, if_neg hns, if_neg hb64]
    show (if calculateEntropy v ≥ cfg.threshold then
        some (v, calculateEntropy v) else none) = _
    rw [if_pos (ge_iff_le.mpr hth)]
  simp only [List.filterMap_cons, List.filterMap_nil]
  rw [hFv]

theorem cexToken_threshold : cexConfig.entropy.threshold ≤
    calculateEntropy cexToken := by
  rw [cexToken_entropy]
  show (3 : ℝ) ≤ Real.logb 2 20
  exact three_le_logb2_twenty

theorem detect_cexToken :
    detectHighEntropyStrings cexToken cexConfig.entropy =
      [(cexToken, calculateEntropy cexToken)] :=
  detect_singleton cexToken cexConfig.entropy cexToken rfl (by decide)
    (by decide) (by decide) (by decide) cexToken_threshold

theorem detect_cexLine2 :
    detectHighEntropyStrings cexLine2 cexConfig.entropy =
      [(cexToken, calculateEntropy cexToken)] :=
  detect_singleton cexLine2 cexConfig.entropy cexToken rfl (by decide)
    (by decide) (by decide) (by decide) cexToken_threshold

theorem swp_cexToken :
    scanWithPatterns cexToken [cexPattern] cexConfig.allowlist = [] := by
  unfold scanWithPatterns
  simp only [List.flatMap_cons, List.flatMap_nil, List.append_nil]
  rw [show cexPattern.matcher cexToken = [] from by
    show apikeyMatcher cexToken = []
    unfold apikeyMatcher
    rw [if_neg (by decide)]]
  rfl

theorem swp_cexLine2 :
    scanWithPatterns cexLine2 [cexPattern] cexConfig.allowlist =
      [(cexPattern, cexToken, 0)] := by
  unfold scanWithPatterns
  simp only [List.flatMap_cons, List.flatMap_nil, List.append_nil]
  rw [show cexPattern.matcher cexLine2 =
      [⟨cexLine2, some cexToken, 0⟩] from by
    show apikeyMatcher cexLine2 = _
    unfold apikeyMatcher
    rw [if_pos (by decide), show cexLine2.drop 7 = cexToken from by decide]]
  simp only [List.filterMap_cons, List.filterMap_nil]
  rw [show matchValue ⟨cexLine2, some cexToken, 0⟩ = cexToken from by
    show (if cexToken = ([] : List Char) then cexLine2 else cexToken) = cexToken
    rw [if_neg (by decide)]]
  rw [show isAllowlisted cexToken cexConfig.allowlist = false from rfl]
  rfl

theorem cex_scan_eval :
    scanLines ['f'] cexLines cexConfig [cexPattern] = [cexFinding] := by
  have hkey : mkKey ['f'] (1 : Int) cexToken ∈ [mkKey ['f'] (1 : Int) cexToken] :=
    List.mem_singleton_self _
  have hfoldE1 : foldEntropyMatches ['f'] ⟨cexToken, 1⟩ cexConfig.allowlist
      [(cexToken, calculateEntropy cexToken)] [] =
      ([mkEntropyFinding ['f'] ⟨cexToken, 1⟩ cexToken
          (calculateEntropy cexToken)],
        [mkKey ['f'] (1 : Int) cexToken]) := by
    rw [foldEntropyMatches]
    rw [if_neg (by simp), if_neg (by decide)]
    rw [foldEntropyMatches]
  have hfoldP2 : foldPatternMatches ['f'] ⟨cexLine2, 1⟩
      [(cexPattern, cexToken, 0)] [mkKey ['f'] (1 : Int) cexToken] =
      ([], [mkKey ['f'] (1 : Int) cexToken]) := by
    rw [foldPatternMatches]
    rw [if_pos hkey]
    rw [foldPatternMatches]
  have hfoldE2 : foldEntropyMatches ['f'] ⟨cexLine2, 1⟩ cexConfig.allowlist
      [(cexToken, calculateEntropy cexToken)]
      [mkKey ['f'] (1 : Int) cexToken] =
      ([], [mkKey ['f'] (1 : Int) cexToken]) := by
    rw [foldEntropyMatches]
    rw [if_pos hkey]
    rw [foldEntropyMatches]
  unfold scanLines
  rw [show cexLines = [⟨cexToken, 1⟩, ⟨cexLine2, 1⟩] from rfl]
  rw [scanLinesGo]
  rw [show (⟨cexToken, (1 : Int)⟩ : AddedLine).line = cexToken from rfl]
  rw [swp_cexToken]
  rw [show foldPatternMatches ['f'] ⟨cexToken, 1⟩ [] [] =
      ([], []) from rfl]
  rw [if_pos (show cexConfig.entropy.enabled = true from rfl)]
  rw [detect_cexToken]
  rw [hfoldE1]
  rw [scanLinesGo]
  rw [show (⟨cexLine2, (1 : Int)⟩ : AddedLine).line = cexLine2 from rfl]
  rw [swp_cexLine2]
  rw [hfoldP2]
  rw [if_pos (show cexConfig.entropy.enabled = true from rfl)]
  rw [detect_cexLine2]
  rw [hfoldE2]
  rw [scanLinesGo]
  rfl

theorem cexFinding_not_five : ¬ (calculateEntropy cexToken ≥ 5.0) := by
  rw [ge_iff_le, cexToken_entropy]
  intro hle
  have h1 := logb2_twenty_lt_five
  have h50 : (5.0 : ℝ) = 5 := by norm_num
  rw [h50] at hle
  linarith

theorem cexFinding_not_fourhalf : ¬ (calculateEntropy cexToken ≥ 4.5) := by
  rw [ge_iff_le, cexToken_entropy]
  intro hle
  have h1 := logb2_twenty_lt_fourhalf
  linarith

theorem cexFinding_confidence : cexFinding.confidence = Severity.medium := by
  show (if calculateEntropy cexToken ≥ 5.0 then Severity.high
      else Severity.medium) = Severity.medium
  rw [if_neg cexFinding_not_five]

theorem cexFinding_severity : cexFinding.severity = Severity.low := by
  show (if calculateEntropy cexToken ≥ 5.0 then Severity.high
      else if calculateEntropy cexToken ≥ 4.5 then Severity.medium
      else Severity.low) = Severity.low
  rw [if_neg cexFinding_not_five, if_neg cexFinding_not_fourhalf]

theorem cexFinding_entropy_lt :
    calculateEntropy cexFinding.rawValue < 4.5 := by
  show calculateEntropy cexToken < 4.5
  rw [cexToken_entropy]
  exact logb2_twenty_lt_fourhalf

/-- Witness for C2 at the concrete scenario: the entropy finding with
entropy below 4.5 has low severity and medium confidence, as the amended
claim states. -/
theorem claim_C2_witness :
    cexFinding.severity = Severity.low ∧
    cexFinding.confidence = Severity.medium := by
  have hmem : cexFinding ∈ scanLines ['f'] cexLines cexConfig [cexPattern] := by
    rw [cex_scan_eval]
    exact List.mem_singleton_self _
  have h := (claim_C2 ['f'] cexLines cexConfig [cexPattern]
    (by
      intro p hp
      rw [List.mem_singleton] at hp
      subst hp
      decide) cexFinding hmem).1 rfl
  exact h.2.2.2 cexFinding_entropy_lt

/-- Counterexample to C2 as stated: a finding whose entropy is below 4.5
has medium confidence, not low. -/
theorem claim_C2_counterexample :
    ¬ (∀ f ∈ scanLines ['f'] cexLines cexConfig [cexPattern],
      f.type = "High Entropy String" →
      calculateEntropy f.rawValue < 4.5 → f.confidence = Severity.low) := by
  intro h
  have h2 := h cexFinding
    (by rw [cex_scan_eval]; exact List.mem_singleton_self _)
    rfl cexFinding_entropy_lt
  rw [cexFinding_confidence] at h2
  exact absurd h2 (by decide)

/-- Counterexample to C1 as stated: two added lines with the same line
number 1, the first carrying the bare candidate value and the second
carrying it behind an apikey= prefix.  The value is matched by the enabled
rule on the second line, yet the single finding for line 1 and this value
is the entropy finding from the first line, not the pattern finding. -/
theorem claim_C1_counterexample :
    (cexPattern, cexToken, 0) ∈
      scanWithPatterns cexLine2 [cexPattern] cexConfig.allowlist ∧
    (⟨cexLine2, 1⟩ : AddedLine) ∈ cexLines ∧
    scanLines ['f'] cexLines cexConfig [cexPattern] = [cexFinding] ∧
    cexFinding.rawValue = cexToken ∧
    cexFinding.line = some 1 ∧
    cexFinding.type = "High Entropy String" ∧
    cexFinding.type ≠ cexPattern.name ∧
    cexFinding.confidence ≠ Severity.high := by
  refine ⟨by rw [swp_cexLine2]; exact List.mem_singleton_self _,
    by simp [cexLines], cex_scan_eval, rfl, rfl, rfl, by decide, ?_⟩
  rw [cexFinding_confidence]
  decide

/-- Witness for C1 at a scan with distinct line numbers (a single line):
the rule-matched value produces exactly one finding, the pattern one. -/
theorem claim_C1_witness :
    ∃ f ∈ scanLines ['f'] [⟨cexLine2, 1⟩] cexConfig [cexPattern],
      f.line = some (1 : Int) ∧ f.rawValue = cexToken ∧
      f.confidence = Severity.high ∧
      (∃ p ∈ [cexPattern], f.type = p.name ∧ f.severity = p.severity) ∧
      ∀ g ∈ scanLines ['f'] [⟨cexLine2, 1⟩] cexConfig [cexPattern],
        g.line = some (1 : Int) → g.rawValue = cexToken → g = f :=
  (claim_C1 ['f'] [⟨cexLine2, 1⟩] cexConfig [cexPattern] (by simp)).2
    ⟨cexLine2, 1⟩ (List.mem_singleton_self _) (cexPattern, cexToken, 0)
    (by rw [swp_cexLine2]; exact List.mem_singleton_self _)

theorem apikeyMatcher_substring : ∀ p ∈ [cexPattern], ∀ text : List Char,
    ∀ m ∈ p.matcher text, matchValue m <:+: text := by
  intro p hp text m hm
  rw [List.mem_singleton] at hp
  subst hp
  have hm' : m ∈ apikeyMatcher text := hm
  unfold apikeyMatcher at hm'
  by_cases hpre : "apikey=".toList <+: text
  · rw [if_pos hpre] at hm'
    rw [List.mem_singleton] at hm'
    subst hm'
    show (if text.drop 7 = [] then text else text.drop 7) <:+: text
    by_cases hd : text.drop 7 = []
    · rw [if_pos hd]
    · rw [if_neg hd]
      exact (List.drop_suffix _ _).isInfix
  · rw [if_neg hpre] at hm'
    simp at hm'

/-- Witness for C10 at the concrete scenario. -/
theorem claim_C10_witness :
    cexFinding.file = ['f'] ∧
    ∃ al ∈ cexLines, cexFinding.line = some al.lineNumber ∧
      cexFinding.rawValue <:+: al.line :=
  claim_C10 ['f'] cexLines cexConfig [cexPattern] apikeyMatcher_substring
    cexFinding (by rw [cex_scan_eval]; exact List.mem_singleton_self _)

end KeySentinel
